import Mathlib

/-!
# go-iterator: a shallow embedding of `iterator.go`, `slice_iterator.go` and `map_iterator.go`

The Go library wraps an `Iterable[T]` (one method, `Next() *T`) in an
`Iterator[T]` and builds every combinator on `Next`.

Embedding conventions.

* A `*T` result is an `Option T`: `nil` is `none`.
* An `Iterable[T]` is a transition function `Next : σ → Option T × σ` on the
  state `σ` of the object behind the interface value.
* An `Iterator[T]` value holds a reference to that object.  The model pairs the
  method table with the current contents of the object; every method that
  pulls returns, next to its Go result, the receiver as it is afterwards.
  Two Go wrappers over the same object are the same model value.
* Go's unbounded `for` loops are run with a fuel counter (one unit per loop
  iteration, `none` when it runs out).  `Take` and the swap loop of `Reverse`
  have a variant and are total.
* Go `int` is `Int`; an addition or subtraction that can leave the 64-bit range
  for some well-typed input is wrapped with `wrapInt`.
* A Go `map[K]V` is a list of entries no two of which have `==` keys, `==`
  being the `BEq` instance of the key type; it need not be reflexive (NaN).
  The order in which `range` produces the keys is unspecified by the language
  and is an explicit argument of `newMapIterator`.
* A callback `func(T)` that acts by side effect is a state update on the
  environment it closes over.
-/

namespace iterator

/-- Two's-complement wrap of an integer into the range of Go's 64-bit `int`. -/
def wrapInt (x : Int) : Int := (x + 2 ^ 63) % 2 ^ 64 - 2 ^ 63

/-- `type Iterable[T any] interface { Next() *T }` over an object of state `σ`. -/
structure Iterable (σ T : Type) where
  Next : σ → Option T × σ

/-- `type Iterator[T any] struct { iterable Iterable[T] }`; `state` is the
current contents of the object the interface value refers to. -/
structure Iterator (σ T : Type) where
  iterable : Iterable σ T
  state : σ

variable {σ σ₂ T U : Type}

/-- `func (iter Iterator[T]) Next() *T`: delegates to the wrapped iterable. -/
def Iterator.Next (iter : Iterator σ T) : Option T × Iterator σ T :=
  ((iter.iterable.Next iter.state).1, ⟨iter.iterable, (iter.iterable.Next iter.state).2⟩)

/-- `func Iterate[T any](iterable Iterable[T]) Iterator[T]`, for an object
whose contents are `s`. -/
def Iterate (iterable : Iterable σ T) (s : σ) : Iterator σ T := ⟨iterable, s⟩

/-! ## slice_iterator.go -/

/-- `type sliceIterator[T any] struct { data []T; idx int }`. -/
structure sliceIterator (T : Type) where
  data : List T
  idx : Nat

/-- `func newSliceIterator[T any](l []T) *sliceIterator[T]`. -/
def newSliceIterator (l : List T) : sliceIterator T := ⟨l, 0⟩

/-- `func (iter *sliceIterator[T]) Next() *T`. -/
def sliceIterator.Next (iter : sliceIterator T) : Option T × sliceIterator T :=
  if h : iter.idx ≥ iter.data.length then
    (none, iter)
  else
    let i := iter.idx
    (some (iter.data.get ⟨i, by omega⟩), ⟨iter.data, iter.idx + 1⟩)

/-- The method table of `*sliceIterator[T]` as an `Iterable[T]`. -/
def sliceIterable : Iterable (sliceIterator T) T := ⟨sliceIterator.Next⟩

/-- `func FromSlice[T any](l []T) Iterator[T]`. -/
def FromSlice (l : List T) : Iterator (sliceIterator T) T :=
  ⟨sliceIterable, newSliceIterator l⟩

/-! ## iterator.go -/

/-- The `for` loop of `Collect`. -/
def Iterator.Collect.loop : Nat → Iterator σ T → List T → Option (List T × Iterator σ T)
  | 0, _, _ => none
  | fuel + 1, iter, res =>
    match iter.Next with
    | (none, iter') => some (res, iter')
    | (some next, iter') => Iterator.Collect.loop fuel iter' (res ++ [next])

/-- `func (iter Iterator[T]) Collect() []T`; returns the slice and the
receiver afterwards. -/
def Iterator.Collect (iter : Iterator σ T) (fuel : Nat) : Option (List T × Iterator σ T) :=
  Iterator.Collect.loop fuel iter []

/-- The `for` loop of `Map`. -/
def Map.loop (fn : T → U) : Nat → Iterator σ T → List U → Option (List U × Iterator σ T)
  | 0, _, _ => none
  | fuel + 1, iterator, res =>
    match iterator.Next with
    | (none, iterator') => some (res, iterator')
    | (some next, iterator') => Map.loop fn fuel iterator' (res ++ [fn next])

/-- `func Map[T any, U any](iterator Iterator[T], fn func(T) U) Iterator[U]`;
returns the new iterator and the argument iterator afterwards. -/
def Map (iterator : Iterator σ T) (fn : T → U) (fuel : Nat) :
    Option (Iterator (sliceIterator U) U × Iterator σ T) :=
  match Map.loop fn fuel iterator [] with
  | none => none
  | some (res, iterator') => some (FromSlice res, iterator')

/-- The `for` loop of `Filter`. -/
def Iterator.Filter.loop (fn : T → Bool) :
    Nat → Iterator σ T → List T → Option (List T × Iterator σ T)
  | 0, _, _ => none
  | fuel + 1, iter, res =>
    match iter.Next with
    | (none, iter') => some (res, iter')
    | (some next, iter') =>
      if fn next then Iterator.Filter.loop fn fuel iter' (res ++ [next])
      else Iterator.Filter.loop fn fuel iter' res

/-- `func (iter Iterator[T]) Filter(fn func(T) bool) Iterator[T]`. -/
def Iterator.Filter (iter : Iterator σ T) (fn : T → Bool) (fuel : Nat) :
    Option (Iterator (sliceIterator T) T × Iterator σ T) :=
  match Iterator.Filter.loop fn fuel iter [] with
  | none => none
  | some (res, iter') => some (FromSlice res, iter')

/-- The `for` loop of `Count`; `count += 1` is a 64-bit addition. -/
def Iterator.Count.loop : Nat → Iterator σ T → Int → Option (Int × Iterator σ T)
  | 0, _, _ => none
  | fuel + 1, iter, count =>
    match iter.Next with
    | (none, iter') => some (count, iter')
    | (some _, iter') => Iterator.Count.loop fuel iter' (wrapInt (count + 1))

/-- `func (iter Iterator[T]) Count() int`. -/
def Iterator.Count (iter : Iterator σ T) (fuel : Nat) : Option (Int × Iterator σ T) :=
  Iterator.Count.loop fuel iter 0

/-- The `for` loop of `Take`.  At `taken += 1` the guard has just established
`taken < n`, so the sum is at most `n` and never leaves the range of `int`. -/
def Iterator.Take.loop (n : Int) (iter : Iterator σ T) (taken : Int) (res : List T) :
    List T × Iterator σ T :=
  if _h : taken ≥ n then
    (res, iter)
  else
    match iter.Next with
    | (none, iter') => (res, iter')
    | (some next, iter') => Iterator.Take.loop n iter' (taken + 1) (res ++ [next])
termination_by (n - taken).toNat
decreasing_by omega

/-- `func (iter Iterator[T]) Take(n int) Iterator[T]`; returns the new
iterator and the receiver afterwards. -/
def Iterator.Take (iter : Iterator σ T) (n : Int) :
    Iterator (sliceIterator T) T × Iterator σ T :=
  (FromSlice (Iterator.Take.loop n iter 0 []).1, (Iterator.Take.loop n iter 0 []).2)

/-- The `for` loop of `Nth`; `i += 1` is a 64-bit addition. -/
def Iterator.Nth.loop (n : Int) : Nat → Iterator σ T → Int → Option (Option T × Iterator σ T)
  | 0, _, _ => none
  | fuel + 1, iter, i =>
    match iter.Next with
    | (none, iter') => some (none, iter')
    | (some next, iter') =>
      if i = n then some (some next, iter')
      else Iterator.Nth.loop n fuel iter' (wrapInt (i + 1))

/-- `func (iter Iterator[T]) Nth(n int) *T`. -/
def Iterator.Nth (iter : Iterator σ T) (n : Int) (fuel : Nat) :
    Option (Option T × Iterator σ T) :=
  Iterator.Nth.loop n fuel iter 0

/-- `func (iter Iterator[T]) Skip(n int) Iterator[T]`: `iter.Take(n); return iter`.
The iterator built by `Take` is dropped.  The returned wrapper is the receiver,
over the same object: first component the returned wrapper, second the
receiver afterwards. -/
def Iterator.Skip (iter : Iterator σ T) (n : Int) : Iterator σ T × Iterator σ T :=
  ((iter.Take n).2, (iter.Take n).2)

/-- The `for` loop of `Partition`. -/
def Iterator.Partition.loop (fn : T → Bool) :
    Nat → Iterator σ T → List T → List T → Option ((List T × List T) × Iterator σ T)
  | 0, _, _, _ => none
  | fuel + 1, iter, l1, l2 =>
    match iter.Next with
    | (none, iter') => some ((l1, l2), iter')
    | (some next, iter') =>
      if fn next then Iterator.Partition.loop fn fuel iter' (l1 ++ [next]) l2
      else Iterator.Partition.loop fn fuel iter' l1 (l2 ++ [next])

/-- `func (iter Iterator[T]) Partition(fn func(T) bool) (Iterator[T], Iterator[T])`. -/
def Iterator.Partition (iter : Iterator σ T) (fn : T → Bool) (fuel : Nat) :
    Option ((Iterator (sliceIterator T) T × Iterator (sliceIterator T) T) × Iterator σ T) :=
  match Iterator.Partition.loop fn fuel iter [] [] with
  | none => none
  | some ((l1, l2), iter') => some ((FromSlice l1, FromSlice l2), iter')

/-- The parallel assignment `vals[i], vals[j] = vals[j], vals[i]`.  An index out
of range panics in Go; `Reverse` never reaches that case and the model leaves
the slice alone there. -/
def swapAt (vals : List T) (i j : Nat) : List T :=
  match vals[i]?, vals[j]? with
  | some a, some b => (vals.set i b).set j a
  | _, _ => vals

/-- The loop `for i, j := 0, len(vals)-1; i < j; i, j = i+1, j-1` of `Reverse`. -/
def Iterator.Reverse.loop (vals : List T) (i j : Int) : List T :=
  if h : i < j then
    Iterator.Reverse.loop (swapAt vals i.toNat j.toNat) (i + 1) (j - 1)
  else
    vals
termination_by (j - i).toNat
decreasing_by omega

/-- `func (iter Iterator[T]) Reverse() Iterator[T]`. -/
def Iterator.Reverse (iter : Iterator σ T) (fuel : Nat) :
    Option (Iterator (sliceIterator T) T × Iterator σ T) :=
  match iter.Collect fuel with
  | none => none
  | some (vals, iter') =>
    some (FromSlice (Iterator.Reverse.loop vals 0 ((vals.length : Int) - 1)), iter')

/-- `func (iter Iterator[T]) Chain(iter2 Iterator[T]) Iterator[T]`:
`FromSlice(append(iter.Collect(), iter2.Collect()...))`, the receiver collected
first.  The two iterators wrap distinct objects; the result comes with both of
them as they are afterwards. -/
def Iterator.Chain (iter : Iterator σ T) (iter2 : Iterator σ₂ T) (fuel : Nat) :
    Option (Iterator (sliceIterator T) T × Iterator σ T × Iterator σ₂ T) :=
  match iter.Collect fuel with
  | none => none
  | some (l, iter') =>
    match iter2.Collect fuel with
    | none => none
    | some (l2, iter2') => some (FromSlice (l ++ l2), iter', iter2')

variable {β K V : Type}

/-- The `for` loop of `Last`. -/
def Iterator.Last.loop : Nat → Iterator σ T → Option T → Option (Option T × Iterator σ T)
  | 0, _, _ => none
  | fuel + 1, iter, current =>
    match iter.Next with
    | (none, iter') => some (current, iter')
    | (some next, iter') => Iterator.Last.loop fuel iter' (some next)

/-- `func (iter Iterator[T]) Last() *T`; `var current *T` starts as `nil`. -/
def Iterator.Last (iter : Iterator σ T) (fuel : Nat) : Option (Option T × Iterator σ T) :=
  Iterator.Last.loop fuel iter none

/-- The `for` loop of `ForEach`.  The callback `fn func(T)` acts by side effect
only; it is a state update on the state `β` it closes over. -/
def Iterator.ForEach.loop (fn : T → β → β) :
    Nat → Iterator σ T → β → Option (β × Iterator σ T)
  | 0, _, _ => none
  | fuel + 1, iter, env =>
    match iter.Next with
    | (none, iter') => some (env, iter')
    | (some next, iter') => Iterator.ForEach.loop fn fuel iter' (fn next env)

/-- `func (iter Iterator[T]) ForEach(fn func(T))`; returns the state of the
callback's environment, started at `env`, and the receiver afterwards. -/
def Iterator.ForEach (iter : Iterator σ T) (fn : T → β → β) (fuel : Nat) (env : β) :
    Option (β × Iterator σ T) :=
  Iterator.ForEach.loop fn fuel iter env

/-- The `for` loop of `StepBy`; `n - 1` is a 64-bit subtraction, and
`iter.Skip(n - 1)` acts on the receiver. -/
def Iterator.StepBy.loop (n : Int) :
    Nat → Iterator σ T → List T → Option (List T × Iterator σ T)
  | 0, _, _ => none
  | fuel + 1, iter, res =>
    match iter.Next with
    | (none, iter') => some (res, iter')
    | (some next, iter') =>
      Iterator.StepBy.loop n fuel (iter'.Skip (wrapInt (n - 1))).2 (res ++ [next])

/-- `func (iter Iterator[T]) StepBy(n int) Iterator[T]`. -/
def Iterator.StepBy (iter : Iterator σ T) (n : Int) (fuel : Nat) :
    Option (Iterator (sliceIterator T) T × Iterator σ T) :=
  match Iterator.StepBy.loop n fuel iter [] with
  | none => none
  | some (res, iter') => some (FromSlice res, iter')

/-! ## map_iterator.go -/

/-- A Go `map[K]V` value, for a key type `K comparable` whose `==` is the `BEq`
instance: finitely many entries, no two of them with keys that are `==`.  The
comparison need not be reflexive: a `float64` NaN differs from itself, so a map
may hold several NaN keys and none of them is ever found again. -/
structure GoMap (K V : Type) [BEq K] where
  entries : List (K × V)
  distinct : entries.Pairwise (fun p q => (p.1 == q.1) = false)

/-- The keys of a map. -/
def GoMap.keys [BEq K] (m : GoMap K V) : List K := m.entries.map Prod.fst

/-- The values of a map, one per entry. -/
def GoMap.values [BEq K] (m : GoMap K V) : List V := m.entries.map Prod.snd

/-- `len(m)`. -/
def GoMap.len [BEq K] (m : GoMap K V) : Nat := m.entries.length

/-- The index expression `m[k]`: the value of the entry whose key is `==` to
`k`, the zero value of `V` when there is none. -/
def GoMap.index [BEq K] [Inhabited V] (m : GoMap K V) (k : K) : V :=
  match m.entries.find? (fun p => p.1 == k) with
  | some p => p.2
  | none => default

/-- The `float64` values used as map keys here: NaN and the floats with an
integral value. -/
inductive Float64 where
  | NaN : Float64
  | ofInt : Int → Float64

/-- Go's `==` on `float64`: numbers compare by value, NaN differs from every
value, itself included. -/
def Float64.eq : Float64 → Float64 → Bool
  | Float64.ofInt x, Float64.ofInt y => x == y
  | _, _ => false

instance : BEq Float64 := ⟨Float64.eq⟩

/-- `type mapIterator[K comparable, V any] struct { keys []K; data map[K]V; idx int }`. -/
structure mapIterator (K V : Type) [BEq K] where
  keys : List K
  data : GoMap K V
  idx : Nat

/-- `func newMapIterator[K comparable, V any](m map[K]V) *mapIterator[K, V]`.
`order` is the sequence of keys that `for key := range m` produces on this run;
the language leaves it unspecified. -/
def newMapIterator [BEq K] (m : GoMap K V) (order : List K) : mapIterator K V :=
  ⟨order.foldl (fun keys key => keys ++ [key]) [], m, 0⟩

/-- `func (iter *mapIterator[K, V]) Next() *V`. -/
def mapIterator.Next [BEq K] [Inhabited V] (iter : mapIterator K V) :
    Option V × mapIterator K V :=
  if h : iter.idx ≥ iter.keys.length then
    (none, iter)
  else
    let val := iter.data.index (iter.keys.get ⟨iter.idx, by omega⟩)
    (some val, ⟨iter.keys, iter.data, iter.idx + 1⟩)

/-- The method table of `*mapIterator[K, V]` as an `Iterable[V]`. -/
def mapIterable [BEq K] [Inhabited V] : Iterable (mapIterator K V) V :=
  ⟨mapIterator.Next⟩

/-- `func FromMap[K comparable, V any](m map[K]V) Iterator[V]`. -/
def FromMap [BEq K] [Inhabited V] (m : GoMap K V) (order : List K) :
    Iterator (mapIterator K V) V :=
  ⟨mapIterable, newMapIterator m order⟩

/-! ## Specification vocabulary -/

/-- `iter.Yields ys iter'`: the next `ys.length` pulls on `iter` return the
elements of `ys` in order and leave the iterator as `iter'`. -/
def Iterator.Yields : Iterator σ T → List T → Iterator σ T → Prop
  | iter, [], iter' => iter' = iter
  | iter, y :: ys, iter' => ∃ mid, iter.Next = (some y, mid) ∧ Iterator.Yields mid ys iter'

/-- `iter.Remaining xs e`: `iter` is a finite source whose remaining elements
are `xs`: it yields `xs`, then the next pull returns `nil` and leaves `e`. -/
def Iterator.Remaining (iter : Iterator σ T) (xs : List T) (e : Iterator σ T) : Prop :=
  ∃ mid, iter.Yields xs mid ∧ mid.Next = (none, e)

/-- The state of the object behind an iterable after `k` pulls. -/
def Iterable.after (it : Iterable σ T) : Nat → σ → σ
  | 0, s => s
  | k + 1, s => Iterable.after it k (it.Next s).2

/-- The exhaustion part of the pull-next contract: a source that has just
answered `nil` answers `nil` to the following pull as well. -/
def Iterable.StaysExhausted (it : Iterable σ T) : Prop :=
  ∀ s, (it.Next s).1 = none → (it.Next (it.Next s).2).1 = none

/-- A caller-supplied source: it hands out the elements of a list and counts
the pulls it has answered with `nil`. -/
def countingSource : Iterable (List Nat × Nat) Nat :=
  ⟨fun s =>
    match s with
    | (x :: rest, nils) => (some x, (rest, nils))
    | ([], nils) => (none, ([], nils + 1))⟩

/-! ## Lemmas on the sources -/

theorem Collect_loop_of_Remaining {xs : List T} :
    ∀ {iter e : Iterator σ T} (res : List T) (fuel : Nat),
      iter.Remaining xs e → xs.length < fuel →
      Iterator.Collect.loop fuel iter res = some (res ++ xs, e) := by
  induction xs with
  | nil =>
    intro iter e res fuel h hf
    obtain ⟨mid, hy, hn⟩ := h
    simp only [Iterator.Yields] at hy
    subst hy
    cases fuel with
    | zero => simp at hf
    | succ fuel => simp [Iterator.Collect.loop, hn]
  | cons x xs ih =>
    intro iter e res fuel h hf
    obtain ⟨mid, ⟨t, ht, hy⟩, hn⟩ := h
    cases fuel with
    | zero => simp at hf
    | succ fuel =>
      have hf' : xs.length < fuel := by simpa using hf
      simp [Iterator.Collect.loop, ht, ih (res ++ [x]) fuel ⟨mid, hy, hn⟩ hf']

theorem Remaining_of_Collect_loop :
    ∀ (fuel : Nat) {iter e : Iterator σ T} (res out : List T),
      Iterator.Collect.loop fuel iter res = some (out, e) →
      ∃ xs, out = res ++ xs ∧ iter.Remaining xs e ∧ xs.length < fuel := by
  intro fuel
  induction fuel with
  | zero => intro iter e res out h; simp [Iterator.Collect.loop] at h
  | succ fuel ih =>
    intro iter e res out h
    rw [Iterator.Collect.loop] at h
    rcases hn : iter.Next with ⟨_ | next, iter'⟩
    · rw [hn] at h
      simp only [Option.some.injEq, Prod.mk.injEq] at h
      obtain ⟨rfl, rfl⟩ := h
      exact ⟨[], by simp, ⟨iter, rfl, hn⟩, by simp⟩
    · rw [hn] at h
      obtain ⟨xs, rfl, ⟨mid, hy, hm⟩, hl⟩ := ih _ _ h
      exact ⟨next :: xs, by simp, ⟨mid, ⟨iter', hn, hy⟩, hm⟩, by simpa using hl⟩

/-- A finite source, seen through `Collect`. -/
theorem Collect_eq_some_iff {iter e : Iterator σ T} {xs : List T} {fuel : Nat} :
    iter.Collect fuel = some (xs, e) ↔ iter.Remaining xs e ∧ xs.length < fuel := by
  constructor
  · intro h
    obtain ⟨ys, rfl, hr, hl⟩ := Remaining_of_Collect_loop fuel [] xs h
    exact ⟨by simpa using hr, by simpa using hl⟩
  · rintro ⟨hr, hl⟩
    simpa using Collect_loop_of_Remaining [] fuel hr hl

/-! ## The array source -/

theorem sliceIterator_Next_of_lt (l : List T) (i : Nat) (h : i < l.length) :
    (Iterator.mk sliceIterable (sliceIterator.mk l i)).Next =
      (some (l.get ⟨i, h⟩), Iterator.mk sliceIterable (sliceIterator.mk l (i + 1))) := by
  have h' : ¬ i ≥ l.length := by omega
  simp [Iterator.Next, sliceIterable, sliceIterator.Next, h']

theorem sliceIterator_Next_of_ge (l : List T) (i : Nat) (h : l.length ≤ i) :
    (Iterator.mk sliceIterable (sliceIterator.mk l i)).Next =
      (none, Iterator.mk sliceIterable (sliceIterator.mk l i)) := by
  simp [Iterator.Next, sliceIterable, sliceIterator.Next, h]

theorem sliceIterator_Yields (l : List T) :
    ∀ (k i : Nat), i + k = l.length →
      (Iterator.mk sliceIterable (sliceIterator.mk l i)).Yields (l.drop i)
        (Iterator.mk sliceIterable (sliceIterator.mk l l.length)) := by
  intro k
  induction k with
  | zero =>
    intro i hi
    have : i = l.length := by omega
    subst this
    simp [Iterator.Yields]
  | succ k ih =>
    intro i hi
    have hlt : i < l.length := by omega
    rw [List.drop_eq_getElem_cons hlt]
    exact ⟨_, sliceIterator_Next_of_lt l i hlt, ih (i + 1) (by omega)⟩

/-- A slice iterator at cursor `i` is a finite source with the elements from
index `i` on; exhausted, its cursor is the length. -/
theorem sliceIterator_Remaining (l : List T) (i : Nat) (hi : i ≤ l.length) :
    (Iterator.mk sliceIterable (sliceIterator.mk l i)).Remaining (l.drop i)
      (Iterator.mk sliceIterable (sliceIterator.mk l l.length)) :=
  ⟨_, sliceIterator_Yields l (l.length - i) i (by omega),
    sliceIterator_Next_of_ge l l.length (Nat.le_refl _)⟩

theorem FromSlice_Remaining (l : List T) :
    (FromSlice l).Remaining l (Iterator.mk sliceIterable (sliceIterator.mk l l.length)) := by
  simpa [FromSlice, newSliceIterator] using sliceIterator_Remaining l 0 (Nat.zero_le _)

theorem FromSlice_Collect (l : List T) (fuel : Nat) (h : l.length < fuel) :
    (FromSlice l).Collect fuel =
      some (l, Iterator.mk sliceIterable (sliceIterator.mk l l.length)) :=
  Collect_eq_some_iff.2 ⟨FromSlice_Remaining l, h⟩

/-! ## The loops on a finite source -/

theorem Map_loop_of_Remaining (fn : T → U) {xs : List T} :
    ∀ {iter e : Iterator σ T} (res : List U) (fuel : Nat),
      iter.Remaining xs e → xs.length < fuel →
      Map.loop fn fuel iter res = some (res ++ xs.map fn, e) := by
  induction xs with
  | nil =>
    intro iter e res fuel h hf
    obtain ⟨mid, hy, hn⟩ := h
    simp only [Iterator.Yields] at hy
    subst hy
    cases fuel with
    | zero => simp at hf
    | succ fuel => simp [Map.loop, hn]
  | cons x xs ih =>
    intro iter e res fuel h hf
    obtain ⟨mid, ⟨t, ht, hy⟩, hn⟩ := h
    cases fuel with
    | zero => simp at hf
    | succ fuel =>
      have hf' : xs.length < fuel := by simpa using hf
      simp [Map.loop, ht, ih (res ++ [fn x]) fuel ⟨mid, hy, hn⟩ hf']

theorem Filter_loop_of_Remaining (fn : T → Bool) {xs : List T} :
    ∀ {iter e : Iterator σ T} (res : List T) (fuel : Nat),
      iter.Remaining xs e → xs.length < fuel →
      Iterator.Filter.loop fn fuel iter res = some (res ++ xs.filter fn, e) := by
  induction xs with
  | nil =>
    intro iter e res fuel h hf
    obtain ⟨mid, hy, hn⟩ := h
    simp only [Iterator.Yields] at hy
    subst hy
    cases fuel with
    | zero => simp at hf
    | succ fuel => simp [Iterator.Filter.loop, hn]
  | cons x xs ih =>
    intro iter e res fuel h hf
    obtain ⟨mid, ⟨t, ht, hy⟩, hn⟩ := h
    cases fuel with
    | zero => simp at hf
    | succ fuel =>
      have hf' : xs.length < fuel := by simpa using hf
      cases hx : fn x with
      | true =>
        simp [Iterator.Filter.loop, ht, hx, ih (res ++ [x]) fuel ⟨mid, hy, hn⟩ hf']
      | false =>
        simp [Iterator.Filter.loop, ht, hx, ih res fuel ⟨mid, hy, hn⟩ hf']

theorem Partition_loop_of_Remaining (fn : T → Bool) {xs : List T} :
    ∀ {iter e : Iterator σ T} (l1 l2 : List T) (fuel : Nat),
      iter.Remaining xs e → xs.length < fuel →
      Iterator.Partition.loop fn fuel iter l1 l2 =
        some ((l1 ++ xs.filter fn, l2 ++ xs.filter (fun x => !fn x)), e) := by
  induction xs with
  | nil =>
    intro iter e l1 l2 fuel h hf
    obtain ⟨mid, hy, hn⟩ := h
    simp only [Iterator.Yields] at hy
    subst hy
    cases fuel with
    | zero => simp at hf
    | succ fuel => simp [Iterator.Partition.loop, hn]
  | cons x xs ih =>
    intro iter e l1 l2 fuel h hf
    obtain ⟨mid, ⟨t, ht, hy⟩, hn⟩ := h
    cases fuel with
    | zero => simp at hf
    | succ fuel =>
      have hf' : xs.length < fuel := by simpa using hf
      cases hx : fn x with
      | true =>
        simp [Iterator.Partition.loop, ht, hx, ih (l1 ++ [x]) l2 fuel ⟨mid, hy, hn⟩ hf']
      | false =>
        simp [Iterator.Partition.loop, ht, hx, ih l1 (l2 ++ [x]) fuel ⟨mid, hy, hn⟩ hf']

theorem wrapInt_of_range (x : Int) (h₁ : -2 ^ 63 ≤ x) (h₂ : x < 2 ^ 63) : wrapInt x = x := by
  unfold wrapInt
  omega

theorem Count_loop_of_Remaining {xs : List T} :
    ∀ {iter e : Iterator σ T} (count : Int) (fuel : Nat),
      iter.Remaining xs e → xs.length < fuel → 0 ≤ count →
      count + (xs.length : Int) < 2 ^ 63 →
      Iterator.Count.loop fuel iter count = some (count + (xs.length : Int), e) := by
  induction xs with
  | nil =>
    intro iter e count fuel h hf _ _
    obtain ⟨mid, hy, hn⟩ := h
    simp only [Iterator.Yields] at hy
    subst hy
    cases fuel with
    | zero => simp at hf
    | succ fuel => simp [Iterator.Count.loop, hn]
  | cons x xs ih =>
    intro iter e count fuel h hf h0 hb
    obtain ⟨mid, ⟨t, ht, hy⟩, hn⟩ := h
    cases fuel with
    | zero => simp at hf
    | succ fuel =>
      have hf' : xs.length < fuel := by simpa using hf
      have hb' : count + 1 + (xs.length : Int) < 2 ^ 63 := by
        simp only [List.length_cons, Nat.cast_add, Nat.cast_one] at hb
        omega
      have hw : wrapInt (count + 1) = count + 1 :=
        wrapInt_of_range _ (by omega) (by omega)
      have := ih (count + 1) fuel ⟨mid, hy, hn⟩ hf' (by omega) hb'
      simp only [Iterator.Count.loop, ht, hw, this, List.length_cons, Nat.cast_add,
        Nat.cast_one]
      congr 2
      omega

/-- A source that collects within `fuel` pulls also does so within any larger
budget. -/
theorem Collect_mono {iter e : Iterator σ T} {xs : List T} {fuel fuel' : Nat}
    (h : iter.Collect fuel = some (xs, e)) (hle : fuel ≤ fuel') :
    iter.Collect fuel' = some (xs, e) := by
  obtain ⟨hr, hl⟩ := Collect_eq_some_iff.1 h
  exact Collect_eq_some_iff.2 ⟨hr, by omega⟩

/-! ## The swap loop of `Reverse` -/

theorem swapAt_length (vals : List T) (i j : Nat) : (swapAt vals i j).length = vals.length := by
  unfold swapAt
  split <;> simp

theorem swapAt_getElem (vals : List T) (i j : Nat) (hi : i < vals.length)
    (hj : j < vals.length) (k : Nat) :
    (swapAt vals i j)[k]? =
      if k = j then vals[i]? else if k = i then vals[j]? else vals[k]? := by
  unfold swapAt
  rw [List.getElem?_eq_getElem hi, List.getElem?_eq_getElem hj]
  simp only [List.getElem?_set, List.length_set]
  by_cases h1 : j = k
  · subst h1; simp [hj]
  · by_cases h2 : i = k
    · subst h2; simp [h1, hi, Ne.symm h1]
    · simp [h1, h2, Ne.symm h1, Ne.symm h2]

theorem Reverse_loop_spec (d : Nat) :
    ∀ (vals : List T) (a : Nat) (j : Int), (a : Int) + j = (vals.length : Int) - 1 →
      (j - a).toNat ≤ d →
      (Iterator.Reverse.loop vals a j).length = vals.length ∧
      ∀ idx : Nat, (Iterator.Reverse.loop vals a j)[idx]? =
        if (idx : Int) < a ∨ j < idx then vals[idx]? else vals[vals.length - 1 - idx]? := by
  induction d with
  | zero =>
    intro vals a j hsum hd
    have hnot : ¬ ((a : Int) < j) := by omega
    rw [Iterator.Reverse.loop]
    simp only [hnot, dite_false, true_and]
    intro idx
    split
    · rfl
    · have : vals.length - 1 - idx = idx := by omega
      rw [this]
  | succ d ih =>
    intro vals a j hsum hd
    rw [Iterator.Reverse.loop]
    by_cases hlt : (a : Int) < j
    · obtain ⟨b, rfl⟩ := Int.eq_ofNat_of_zero_le (show 0 ≤ j by omega)
      have ha : a < vals.length := by omega
      have hb : b < vals.length := by omega
      simp only [hlt, dite_true, Int.toNat_ofNat]
      have hlen := swapAt_length vals a b
      obtain ⟨h1, h2⟩ := ih (swapAt vals a b) (a + 1) ((b : Int) - 1)
        (by rw [hlen]; push_cast; omega) (by push_cast; omega)
      refine ⟨by rw [← hlen]; exact_mod_cast h1, ?_⟩
      intro idx
      have h2' := h2 idx
      push_cast at h2'
      rw [h2', hlen]
      simp only [swapAt_getElem vals a b ha hb]
      by_cases c1 : idx = a
      · subst c1
        have e1 : vals.length - 1 - idx = b := by omega
        have e2 : ¬ ((idx : Int) < idx ∨ (b : Int) < idx) := by omega
        have e3 : ((idx : Int) < idx + 1 ∨ (b : Int) - 1 < idx) := by omega
        have e4 : idx ≠ b := by omega
        rw [if_pos e3, if_neg e4, if_pos rfl, if_neg e2, e1]
      · by_cases c2 : idx = b
        · subst c2
          have e1 : vals.length - 1 - idx = a := by omega
          have e2 : ¬ ((idx : Int) < a ∨ (idx : Int) < idx) := by omega
          have e3 : ((idx : Int) < a + 1 ∨ (idx : Int) - 1 < idx) := by omega
          rw [if_pos e3, if_pos rfl, if_neg e2, e1]
        · by_cases c3 : (idx : Int) < a ∨ (b : Int) < idx
          · have e3 : ((idx : Int) < a + 1 ∨ (b : Int) - 1 < idx) := by omega
            rw [if_pos e3, if_neg c2, if_neg c1, if_pos c3]
          · have e3 : ¬ ((idx : Int) < a + 1 ∨ (b : Int) - 1 < idx) := by omega
            have e4 : vals.length - 1 - idx ≠ a := by omega
            have e5 : vals.length - 1 - idx ≠ b := by omega
            rw [if_neg e3, if_neg e5, if_neg e4, if_neg c3]
    · have : (j - a).toNat = 0 := by omega
      simp only [hlt, dite_false, true_and]
      intro idx
      split
      · rfl
      · have : vals.length - 1 - idx = idx := by omega
        rw [this]

theorem Reverse_loop_eq_reverse (vals : List T) :
    Iterator.Reverse.loop vals 0 ((vals.length : Int) - 1) = vals.reverse := by
  obtain ⟨h1, h2⟩ := Reverse_loop_spec (vals.length) vals 0 ((vals.length : Int) - 1)
    (by simp) (by omega)
  apply List.ext_getElem?
  intro idx
  have h := h2 idx
  simp only [Nat.cast_zero] at h
  rw [h]
  by_cases hi : idx < vals.length
  · have : ¬ ((idx : Int) < 0 ∨ (vals.length : Int) - 1 < idx) := by omega
    rw [if_neg this, List.getElem?_reverse hi]
  · have : ((idx : Int) < 0 ∨ (vals.length : Int) - 1 < idx) := by omega
    rw [if_pos this, List.getElem?_eq_none (by omega), List.getElem?_eq_none (by simp; omega)]

/-! ## Sources pull by pull -/

theorem Yields_Remaining (ys : List T) :
    ∀ {iter mid e : Iterator σ T} {xs : List T}, iter.Yields ys mid → iter.Remaining xs e →
      ∃ zs, xs = ys ++ zs ∧ mid.Remaining zs e := by
  induction ys with
  | nil =>
    intro iter mid e xs hy hr
    simp only [Iterator.Yields] at hy
    subst hy
    exact ⟨xs, rfl, hr⟩
  | cons y ys ih =>
    intro iter mid e xs hy hr
    obtain ⟨t, ht, hy⟩ := hy
    cases xs with
    | nil =>
      obtain ⟨m, hm, hn⟩ := hr
      simp only [Iterator.Yields] at hm
      subst hm
      rw [ht] at hn
      simp at hn
    | cons x xs =>
      obtain ⟨m, ⟨t', ht', hm⟩, hn⟩ := hr
      rw [ht] at ht'
      simp only [Prod.mk.injEq, Option.some.injEq] at ht'
      obtain ⟨rfl, rfl⟩ := ht'
      obtain ⟨zs, rfl, hz⟩ := ih hy ⟨m, hm, hn⟩
      exact ⟨zs, rfl, hz⟩

theorem Remaining_split {xs : List T} :
    ∀ {iter e : Iterator σ T} (k : Nat), iter.Remaining xs e → k ≤ xs.length →
      ∃ mid, iter.Yields (xs.take k) mid ∧ mid.Remaining (xs.drop k) e := by
  induction xs with
  | nil =>
    intro iter e k hr _
    exact ⟨iter, by simp [Iterator.Yields], by simpa using hr⟩
  | cons x xs ih =>
    intro iter e k hr hk
    cases k with
    | zero => exact ⟨iter, by simp [Iterator.Yields], by simpa using hr⟩
    | succ k =>
      obtain ⟨m, ⟨t, ht, hm⟩, hn⟩ := hr
      obtain ⟨mid, h1, h2⟩ := ih k ⟨m, hm, hn⟩ (by simpa using hk)
      exact ⟨mid, ⟨t, ht, h1⟩, h2⟩

theorem Remaining_nil_iff {iter e : Iterator σ T} :
    iter.Remaining [] e ↔ iter.Next = (none, e) := by
  constructor
  · rintro ⟨m, hm, hn⟩
    simp only [Iterator.Yields] at hm
    subst hm
    exact hn
  · intro h
    exact ⟨iter, rfl, h⟩

/-! ## The loop of `Take` -/

theorem Take_loop_of_Yields (n : Int) (ys : List T) :
    ∀ {iter mid : Iterator σ T} (taken : Int) (res : List T),
      iter.Yields ys mid → taken + (ys.length : Int) = n →
      Iterator.Take.loop n iter taken res = (res ++ ys, mid) := by
  induction ys with
  | nil =>
    intro iter mid taken res hy hn
    simp only [Iterator.Yields] at hy
    subst hy
    rw [Iterator.Take.loop]
    have : taken ≥ n := by simp at hn; omega
    simp [this]
  | cons y ys ih =>
    intro iter mid taken res hy hn
    obtain ⟨t, ht, hy⟩ := hy
    rw [Iterator.Take.loop]
    have hlt : ¬ taken ≥ n := by
      simp only [List.length_cons, Nat.cast_add, Nat.cast_one] at hn
      omega
    have hn' : taken + 1 + (ys.length : Int) = n := by
      simp only [List.length_cons, Nat.cast_add, Nat.cast_one] at hn
      omega
    simp [hlt, ht, ih (taken + 1) (res ++ [y]) hy hn']

theorem Take_loop_of_Remaining_short (n : Int) (xs : List T) :
    ∀ {iter e : Iterator σ T} (taken : Int) (res : List T),
      iter.Remaining xs e → taken + (xs.length : Int) < n →
      Iterator.Take.loop n iter taken res = (res ++ xs, e) := by
  induction xs with
  | nil =>
    intro iter e taken res hr hn
    rw [Iterator.Take.loop]
    have hlt : ¬ taken ≥ n := by simp at hn; omega
    simp [hlt, Remaining_nil_iff.1 hr]
  | cons x xs ih =>
    intro iter e taken res hr hn
    obtain ⟨m, ⟨t, ht, hm⟩, he⟩ := hr
    rw [Iterator.Take.loop]
    have hlt : ¬ taken ≥ n := by
      simp only [List.length_cons, Nat.cast_add, Nat.cast_one] at hn
      omega
    have hn' : taken + 1 + (xs.length : Int) < n := by
      simp only [List.length_cons, Nat.cast_add, Nat.cast_one] at hn
      omega
    simp [hlt, ht, ih (taken + 1) (res ++ [x]) ⟨m, hm, he⟩ hn']

/-- On any source, finite or not, the loop of `Take` stops: either it has pulled
as many elements as were asked for and the receiver is left right after them,
or the source signalled exhaustion before that. -/
theorem Take_loop_any (n : Int) (k : Nat) :
    ∀ (iter : Iterator σ T) (taken : Int) (res : List T), (n - taken).toNat = k →
      ∃ ys mid, iter.Yields ys mid ∧
        (Iterator.Take.loop n iter taken res).1 = res ++ ys ∧
        ((ys.length = k ∧ (Iterator.Take.loop n iter taken res).2 = mid) ∨
          (ys.length < k ∧ mid.Next = (none, (Iterator.Take.loop n iter taken res).2))) := by
  induction k with
  | zero =>
    intro iter taken res hk
    have : taken ≥ n := by omega
    rw [Iterator.Take.loop]
    exact ⟨[], iter, rfl, by simp [this], Or.inl ⟨rfl, by simp [this]⟩⟩
  | succ k ih =>
    intro iter taken res hk
    have hlt : ¬ taken ≥ n := by omega
    rw [Iterator.Take.loop]
    rcases hN : iter.Next with ⟨_ | next, iter'⟩
    · exact ⟨[], iter, rfl, by simp [hlt], Or.inr ⟨by simp, by simp [hlt, hN]⟩⟩
    · obtain ⟨ys, mid, hy, h1, h2⟩ := ih iter' (taken + 1) (res ++ [next]) (by omega)
      refine ⟨next :: ys, mid, ⟨iter', hN, hy⟩, by simp [hlt, h1], ?_⟩
      rcases h2 with ⟨h2, h3⟩ | ⟨h2, h3⟩
      · exact Or.inl ⟨by simp [h2], by simp [hlt, h3]⟩
      · exact Or.inr ⟨by simp [h2], by simp [hlt, h3]⟩

/-- `Take` on a finite source: the first `n` of the remaining elements, and what
is left of the source. -/
theorem Take_of_Remaining {iter e : Iterator σ T} {xs : List T} (n : Int)
    (hr : iter.Remaining xs e) :
    (iter.Take n).1 = FromSlice (xs.take n.toNat) ∧
      (n.toNat ≤ xs.length →
        iter.Yields (xs.take n.toNat) (iter.Take n).2 ∧
        (iter.Take n).2.Remaining (xs.drop n.toNat) e) ∧
      (xs.length < n.toNat → (iter.Take n).2 = e) := by
  by_cases hle : n.toNat ≤ xs.length
  · obtain ⟨mid, hy, hm⟩ := Remaining_split n.toNat hr hle
    have hlen : (0 : Int) + ((xs.take n.toNat).length : Int) = n ∨ n < 0 := by
      rw [List.length_take]
      omega
    have key : Iterator.Take.loop n iter 0 [] = ([] ++ xs.take n.toNat, mid) := by
      rcases hlen with hlen | hneg
      · exact Take_loop_of_Yields n _ 0 [] hy hlen
      · have h0 : n.toNat = 0 := by omega
        rw [h0] at hy ⊢
        simp only [List.take_zero, Iterator.Yields] at hy
        subst hy
        rw [Iterator.Take.loop]
        have : (0 : Int) ≥ n := by omega
        simp [this]
    simp only [List.nil_append] at key
    refine ⟨by simp [Iterator.Take, key], fun _ => ?_, fun h => by omega⟩
    simp only [Iterator.Take, key]
    exact ⟨hy, hm⟩
  · have hlt : xs.length < n.toNat := by omega
    have key := Take_loop_of_Remaining_short n xs 0 [] hr (by omega)
    simp only [List.nil_append] at key
    refine ⟨?_, fun h => by omega, fun _ => by simp [Iterator.Take, key]⟩
    simp [Iterator.Take, key, List.take_of_length_le (Nat.le_of_lt hlt)]

/-! ## The loop of `Nth` -/

theorem Nth_loop_of_Remaining (n : Int) (hn : n < 2 ^ 63) {xs : List T} :
    ∀ {iter e : Iterator σ T} (i : Int) (k fuel : Nat),
      iter.Remaining xs e → 0 ≤ i → i + (k : Int) = n → k < fuel →
      ∃ iter' mid, Iterator.Nth.loop n fuel iter i = some (xs[k]?, iter') ∧
        iter.Yields (xs.take (k + 1)) mid ∧
        (k < xs.length → iter' = mid) ∧
        (xs.length ≤ k → mid.Next = (none, iter')) := by
  induction xs with
  | nil =>
    intro iter e i k fuel hr _ _ hf
    have hN := Remaining_nil_iff.1 hr
    cases fuel with
    | zero => omega
    | succ fuel =>
      exact ⟨e, iter, by simp [Iterator.Nth.loop, hN], by simp [Iterator.Yields],
        fun h => by simp at h, fun _ => hN⟩
  | cons x xs ih =>
    intro iter e i k fuel hr hi hk hf
    obtain ⟨m, ⟨t, ht, hm⟩, he⟩ := hr
    cases fuel with
    | zero => omega
    | succ fuel =>
      cases k with
      | zero =>
        have hin : i = n := by simpa using hk
        exact ⟨t, t, by simp [Iterator.Nth.loop, ht, hin], ⟨t, ht, rfl⟩, fun _ => rfl,
          fun h => by simp at h⟩
      | succ k =>
        have hne : ¬ i = n := by push_cast at hk; omega
        have hw : wrapInt (i + 1) = i + 1 := wrapInt_of_range _ (by omega) (by push_cast at hk; omega)
        obtain ⟨iter', mid, h1, h2, h3, h4⟩ :=
          ih (i + 1) k fuel ⟨m, hm, he⟩ (by omega) (by push_cast at hk ⊢; omega) (by omega)
        refine ⟨iter', mid, by simp [Iterator.Nth.loop, ht, hne, hw, h1], ⟨t, ht, h2⟩,
          fun h => h3 (by simpa using h), fun h => h4 (by simpa using h)⟩

theorem sliceIterator_Yields_take (l : List T) :
    ∀ (k i : Nat), i + k ≤ l.length →
      (Iterator.mk sliceIterable (sliceIterator.mk l i)).Yields ((l.drop i).take k)
        (Iterator.mk sliceIterable (sliceIterator.mk l (i + k))) := by
  intro k
  induction k with
  | zero => intro i _; simp [Iterator.Yields]
  | succ k ih =>
    intro i hi
    have hlt : i < l.length := by omega
    rw [List.drop_eq_getElem_cons hlt, List.take_succ_cons]
    refine ⟨_, sliceIterator_Next_of_lt l i hlt, ?_⟩
    have := ih (i + 1) (by omega)
    rwa [show i + 1 + k = i + (k + 1) by omega] at this

/-- `Take` on a slice iterator at cursor `i`: the next `n` elements (all that is
left when fewer remain) and the cursor moved past them. -/
theorem sliceIterator_Take (l : List T) (i : Nat) (n : Int) (hi : i ≤ l.length) :
    (Iterator.mk sliceIterable (sliceIterator.mk l i)).Take n =
      (FromSlice ((l.drop i).take n.toNat),
        Iterator.mk sliceIterable (sliceIterator.mk l (min (i + n.toNat) l.length))) := by
  have hr := sliceIterator_Remaining l i hi
  obtain ⟨h1, h2, h3⟩ := Take_of_Remaining n hr
  refine Prod.ext h1 ?_
  by_cases hle : i + n.toNat ≤ l.length
  · have hy := sliceIterator_Yields_take l n.toNat i hle
    have hlen : ((l.drop i).take n.toNat).length = n.toNat := by
      rw [List.length_take, List.length_drop]; omega
    by_cases hn : 0 ≤ n
    · have key := Take_loop_of_Yields n _ 0 [] hy (by rw [hlen]; omega)
      simp [Iterator.Take, key, Nat.min_eq_left hle]
    · have h0 : n.toNat = 0 := by omega
      have : (0 : Int) ≥ n := by omega
      simp [Iterator.Take, Iterator.Take.loop, this, h0, hi]
  · have := h3 (by rw [List.length_drop]; omega)
    rw [this, Nat.min_eq_right (by omega)]

/-! ## The loops of `Last` and `ForEach` -/

theorem Last_loop_of_Remaining {xs : List T} :
    ∀ {iter e : Iterator σ T} (current : Option T) (fuel : Nat),
      iter.Remaining xs e → xs.length < fuel →
      Iterator.Last.loop fuel iter current =
        some (if xs.isEmpty then current else xs.getLast?, e) := by
  induction xs with
  | nil =>
    intro iter e current fuel h hf
    have hN := Remaining_nil_iff.1 h
    cases fuel with
    | zero => simp at hf
    | succ fuel => simp [Iterator.Last.loop, hN]
  | cons x xs ih =>
    intro iter e current fuel h hf
    obtain ⟨mid, ⟨t, ht, hy⟩, hn⟩ := h
    cases fuel with
    | zero => simp at hf
    | succ fuel =>
      have hf' : xs.length < fuel := by simpa using hf
      rw [Iterator.Last.loop, ht]
      simp only
      rw [ih (some x) fuel ⟨mid, hy, hn⟩ hf']
      cases xs with
      | nil => simp
      | cons y ys => simp [List.getLast?_cons_cons]

theorem ForEach_loop_of_Remaining (fn : T → β → β) {xs : List T} :
    ∀ {iter e : Iterator σ T} (env : β) (fuel : Nat),
      iter.Remaining xs e → xs.length < fuel →
      Iterator.ForEach.loop fn fuel iter env =
        some (xs.foldl (fun acc x => fn x acc) env, e) := by
  induction xs with
  | nil =>
    intro iter e env fuel h hf
    have hN := Remaining_nil_iff.1 h
    cases fuel with
    | zero => simp at hf
    | succ fuel => simp [Iterator.ForEach.loop, hN]
  | cons x xs ih =>
    intro iter e env fuel h hf
    obtain ⟨mid, ⟨t, ht, hy⟩, hn⟩ := h
    cases fuel with
    | zero => simp at hf
    | succ fuel =>
      have hf' : xs.length < fuel := by simpa using hf
      simp [Iterator.ForEach.loop, ht, ih (fn x env) fuel ⟨mid, hy, hn⟩ hf']

theorem foldl_record (xs : List T) :
    ∀ calls : List T, xs.foldl (fun acc x => acc ++ [x]) calls = calls ++ xs := by
  induction xs with
  | nil => intro calls; simp
  | cons x xs ih => intro calls; simp [ih]

/-! ## The loop of `StepBy` -/

theorem StepBy_loop_of_Remaining (k : Nat) (hk : 1 ≤ k) (hk' : (k : Int) < 2 ^ 63) (L : Nat) :
    ∀ (xs : List T) {iter e : Iterator σ T} (res : List T) (fuel : Nat),
      xs.length ≤ L → iter.Remaining xs e → xs.length < fuel →
      (xs.length % k ≠ 0 → e.Next.1 = none) →
      ∃ ys e', Iterator.StepBy.loop (k : Int) fuel iter res = some (res ++ ys, e') ∧
        (∀ j, ys[j]? = xs[j * k]?) ∧
        ys.length = (xs.length + k - 1) / k ∧
        (e' = e ∨ e' = e.Next.2) := by
  induction L with
  | zero =>
    intro xs iter e res fuel hL hr hf _
    have hx : xs = [] := List.eq_nil_of_length_eq_zero (by omega)
    subst hx
    have hN := Remaining_nil_iff.1 hr
    cases fuel with
    | zero => simp at hf
    | succ fuel =>
      refine ⟨[], e, by simp [Iterator.StepBy.loop, hN], by simp, ?_, Or.inl rfl⟩
      simp only [List.length_nil, Nat.zero_add]
      exact (Nat.div_eq_of_lt (by omega)).symm
  | succ L ih =>
    intro xs iter e res fuel hL hr hf hperm
    cases xs with
    | nil =>
      have hN := Remaining_nil_iff.1 hr
      cases fuel with
      | zero => simp at hf
      | succ fuel =>
        refine ⟨[], e, by simp [Iterator.StepBy.loop, hN], by simp, ?_, Or.inl rfl⟩
        simp only [List.length_nil, Nat.zero_add]
        exact (Nat.div_eq_of_lt (by omega)).symm
    | cons x rest =>
      obtain ⟨m, ⟨t, ht, hm⟩, he⟩ := hr
      have hrest : t.Remaining rest e := ⟨m, hm, he⟩
      simp only [List.length_cons] at hL hf hperm ⊢
      cases fuel with
      | zero => omega
      | succ fuel =>
        have hw : wrapInt ((k : Int) - 1) = (k : Int) - 1 :=
          wrapInt_of_range _ (by omega) (by omega)
        have htn : ((k : Int) - 1).toNat = k - 1 := by omega
        obtain ⟨_, h2, h3⟩ := Take_of_Remaining ((k : Int) - 1) hrest
        rw [htn] at h2 h3
        have hlen1 : (rest.length + 1 + k - 1) / k = (rest.length) / k + 1 := by
          rw [show rest.length + 1 + k - 1 = rest.length + k by omega]
          exact Nat.add_div_right _ (by omega)
        rw [Iterator.StepBy.loop, ht]
        simp only [Iterator.Skip, hw]
        by_cases hle : k - 1 ≤ rest.length
        · obtain ⟨_, hrem⟩ := h2 hle
          have hdl : (rest.drop (k - 1)).length = rest.length - (k - 1) := List.length_drop _ _
          obtain ⟨ys, e', k1, k2, k3, k4⟩ := ih (rest.drop (k - 1)) (res ++ [x]) fuel
            (by omega) hrem (by omega) (by
              intro hmod
              apply hperm
              rw [hdl] at hmod
              intro h0
              apply hmod
              have : rest.length + 1 = (rest.length - (k - 1)) + k := by omega
              rw [this, Nat.add_mod_right] at h0
              exact h0)
          refine ⟨x :: ys, e', by simp [k1], ?_, ?_, k4⟩
          · intro j
            cases j with
            | zero => simp
            | succ j =>
              rw [List.getElem?_cons_succ, k2 j, List.getElem?_drop]
              have : (j + 1) * k = (k - 1 + j * k) + 1 := by
                rw [Nat.succ_mul]; omega
              rw [this, List.getElem?_cons_succ]
          · rw [List.length_cons, k3, hlen1, hdl]
            congr 1
            have : rest.length - (k - 1) + k - 1 = rest.length := by omega
            rw [this]
        · have hlt : rest.length < k - 1 := by omega
          have hst := h3 hlt
          have hmod : (rest.length + 1) % k ≠ 0 := by
            rw [Nat.mod_eq_of_lt (by omega)]; omega
          have hnone := hperm hmod
          have hN : e.Next = (none, e.Next.2) := Prod.ext hnone rfl
          rw [hst]
          cases fuel with
          | zero => omega
          | succ fuel =>
            refine ⟨[x], e.Next.2, ?_, ?_, ?_, Or.inr rfl⟩
            · rw [Iterator.StepBy.loop, hN]
            · intro j
              cases j with
              | zero => simp
              | succ j =>
                have hge : (x :: rest).length ≤ (j + 1) * k := by
                  rw [Nat.succ_mul, List.length_cons]; omega
                rw [List.getElem?_eq_none hge]
                simp
            · rw [hlen1, Nat.div_eq_of_lt (by omega)]
              rfl

theorem Skip_of_nonpos (iter : Iterator σ T) (m : Int) (hm : m ≤ 0) :
    (iter.Skip m).2 = iter := by
  have : (0 : Int) ≥ m := hm
  simp [Iterator.Skip, Iterator.Take, Iterator.Take.loop, this]

theorem StepBy_loop_of_nonpos (n : Int) (hn : wrapInt (n - 1) ≤ 0) {xs : List T} :
    ∀ {iter e : Iterator σ T} (res : List T) (fuel : Nat),
      iter.Remaining xs e → xs.length < fuel →
      Iterator.StepBy.loop n fuel iter res = some (res ++ xs, e) := by
  induction xs with
  | nil =>
    intro iter e res fuel h hf
    have hN := Remaining_nil_iff.1 h
    cases fuel with
    | zero => simp at hf
    | succ fuel => simp [Iterator.StepBy.loop, hN]
  | cons x xs ih =>
    intro iter e res fuel h hf
    obtain ⟨mid, ⟨t, ht, hy⟩, hn'⟩ := h
    cases fuel with
    | zero => simp at hf
    | succ fuel =>
      have hf' : xs.length < fuel := by simpa using hf
      rw [Iterator.StepBy.loop, ht]
      simp only [Skip_of_nonpos t _ hn]
      rw [ih (res ++ [x]) fuel ⟨mid, hy, hn'⟩ hf']
      simp

/-- One round of the loop of `StepBy` on a slice iterator with an element left. -/
theorem sliceIterator_StepBy_loop_lt (n : Int) (l : List T) (i fuel : Nat) (res : List T)
    (hi : i < l.length) :
    Iterator.StepBy.loop n (fuel + 1) (Iterator.mk sliceIterable (sliceIterator.mk l i)) res =
      Iterator.StepBy.loop n fuel
        (Iterator.mk sliceIterable
          (sliceIterator.mk l (min (i + 1 + (wrapInt (n - 1)).toNat) l.length)))
        (res ++ [l.get ⟨i, hi⟩]) := by
  rw [Iterator.StepBy.loop, sliceIterator_Next_of_lt l i hi]
  simp only [Iterator.Skip, sliceIterator_Take l (i + 1) _ hi]

/-- The last round of the loop of `StepBy` on a slice iterator. -/
theorem sliceIterator_StepBy_loop_ge (n : Int) (l : List T) (i fuel : Nat) (res : List T)
    (hi : l.length ≤ i) :
    Iterator.StepBy.loop n (fuel + 1) (Iterator.mk sliceIterable (sliceIterator.mk l i)) res =
      some (res, Iterator.mk sliceIterable (sliceIterator.mk l i)) := by
  rw [Iterator.StepBy.loop, sliceIterator_Next_of_ge l i hi]

theorem StepBy_of_loop {iter e : Iterator σ T} {n : Int} {fuel : Nat} {res : List T}
    (h : Iterator.StepBy.loop n fuel iter [] = some (res, e)) :
    iter.StepBy n fuel = some (FromSlice res, e) := by
  simp [Iterator.StepBy, h]

/-! ## `Nth` against `Skip` and a pull -/

theorem Yields_append_inv (ys : List T) :
    ∀ {iter mid last : Iterator σ T} {zs : List T},
      iter.Yields (ys ++ zs) last → iter.Yields ys mid → mid.Yields zs last := by
  induction ys with
  | nil =>
    intro iter mid last zs h1 h2
    simp only [Iterator.Yields] at h2
    subst h2
    simpa using h1
  | cons y ys ih =>
    intro iter mid last zs h1 h2
    obtain ⟨t, ht, h1⟩ := h1
    obtain ⟨t', ht', h2⟩ := h2
    rw [ht] at ht'
    simp only [Prod.mk.injEq, Option.some.injEq, true_and] at ht'
    subst ht'
    exact ih h1 h2

theorem Nth_of_Remaining {iter e : Iterator σ T} {xs : List T} (n : Int) (fuel : Nat)
    (hr : iter.Remaining xs e) (hn : 0 ≤ n) (hn' : n < 2 ^ 63) (hf : n.toNat < fuel) :
    ∃ iter', iter.Nth n fuel = some (xs[n.toNat]?, iter') ∧
      (n.toNat < xs.length → iter.Yields (xs.take (n.toNat + 1)) iter') ∧
      (xs.length ≤ n.toNat → iter' = e) := by
  obtain ⟨iter', mid, h1, h2, h3, h4⟩ :=
    Nth_loop_of_Remaining n hn' 0 n.toNat fuel hr (Int.le_refl 0) (by omega) hf
  refine ⟨iter', h1, fun hlt => by rw [h3 hlt]; exact h2, fun hle => ?_⟩
  obtain ⟨m, hm, hme⟩ := hr
  rw [List.take_of_length_le (by omega)] at h2
  have hmid : mid = m := by
    have hm' : iter.Yields (xs ++ []) m := by simpa using hm
    have := Yields_append_inv xs hm' h2
    simpa [Iterator.Yields] using this.symm
  subst hmid
  have := h4 hle
  rw [hme] at this
  simp only [Prod.mk.injEq, true_and] at this
  exact this.symm

/-! ## The associative-container source and repeated pulls -/

theorem foldl_append_singleton (order : List K) :
    ∀ keys : List K, order.foldl (fun keys key => keys ++ [key]) keys = keys ++ order := by
  induction order with
  | nil => intro keys; simp
  | cons k order ih => intro keys; simp [ih]

theorem newMapIterator_eq [BEq K] (m : GoMap K V) (order : List K) :
    newMapIterator m order = mapIterator.mk order m 0 := by
  simp [newMapIterator, foldl_append_singleton]

theorem mapIterator_Next_of_lt [BEq K] [Inhabited V] (keys : List K) (m : GoMap K V)
    (i : Nat) (h : i < keys.length) :
    (Iterator.mk mapIterable (mapIterator.mk keys m i)).Next =
      (some (m.index (keys.get ⟨i, h⟩)),
        Iterator.mk mapIterable (mapIterator.mk keys m (i + 1))) := by
  have h' : ¬ i ≥ keys.length := by omega
  simp [Iterator.Next, mapIterable, mapIterator.Next, h']

theorem mapIterator_Next_of_ge [BEq K] [Inhabited V] (keys : List K) (m : GoMap K V)
    (i : Nat) (h : keys.length ≤ i) :
    (Iterator.mk mapIterable (mapIterator.mk keys m i)).Next =
      (none, Iterator.mk mapIterable (mapIterator.mk keys m i)) := by
  simp [Iterator.Next, mapIterable, mapIterator.Next, h]

theorem mapIterator_Yields [BEq K] [Inhabited V] (keys : List K) (m : GoMap K V) :
    ∀ (k i : Nat), i + k = keys.length →
      (Iterator.mk mapIterable (mapIterator.mk keys m i)).Yields ((keys.drop i).map m.index)
        (Iterator.mk mapIterable (mapIterator.mk keys m keys.length)) := by
  intro k
  induction k with
  | zero =>
    intro i hi
    have : i = keys.length := by omega
    subst this
    simp [Iterator.Yields]
  | succ k ih =>
    intro i hi
    have hlt : i < keys.length := by omega
    rw [List.drop_eq_getElem_cons hlt, List.map_cons]
    exact ⟨_, mapIterator_Next_of_lt keys m i hlt, ih (i + 1) (by omega)⟩

theorem FromMap_Remaining [BEq K] [Inhabited V] (m : GoMap K V) (order : List K) :
    (FromMap m order).Remaining (order.map m.index)
      (Iterator.mk mapIterable (mapIterator.mk order m order.length)) := by
  refine ⟨_, ?_, mapIterator_Next_of_ge order m order.length (Nat.le_refl _)⟩
  have := mapIterator_Yields order m order.length 0 (by omega)
  simpa [FromMap, newMapIterator_eq] using this

theorem find_of_mem_distinct [BEq K] (p : K × V) (hrefl : (p.1 == p.1) = true) :
    ∀ (l : List (K × V)), l.Pairwise (fun a b => (a.1 == b.1) = false) → p ∈ l →
      l.find? (fun q => q.1 == p.1) = some p := by
  intro l
  induction l with
  | nil => intro _ hp; simp at hp
  | cons a l ih =>
    intro hd hp
    rw [List.pairwise_cons] at hd
    rcases List.mem_cons.1 hp with rfl | hmem
    · simp [List.find?_cons, hrefl]
    · rw [List.find?_cons, hd.1 p hmem]
      exact ih hd.2 hmem

theorem GoMap.index_of_mem [BEq K] [Inhabited V] (m : GoMap K V) (p : K × V)
    (hp : p ∈ m.entries) (hrefl : (p.1 == p.1) = true) : m.index p.1 = p.2 := by
  simp [GoMap.index, find_of_mem_distinct p hrefl m.entries m.distinct hp]

theorem GoMap.keys_map_index [BEq K] [Inhabited V] (m : GoMap K V)
    (hrefl : ∀ k ∈ m.keys, (k == k) = true) :
    m.keys.map m.index = m.values := by
  simp only [GoMap.keys, GoMap.values, List.map_map]
  exact List.map_congr_left fun p hp =>
    m.index_of_mem p hp (hrefl p.1 (List.mem_map_of_mem Prod.fst hp))

/-- A key that differs from itself is never found: `m[k]` is the zero value. -/
theorem GoMap.index_of_irreflexive [BEq K] [Inhabited V] (m : GoMap K V) (k : K)
    (hk : ∀ p ∈ m.entries, (p.1 == k) = false) : m.index k = default := by
  have : m.entries.find? (fun p => p.1 == k) = none := by
    rw [List.find?_eq_none]
    intro p hp
    simp [hk p hp]
  simp [GoMap.index, this]

/-- For a map left unchanged after construction and all of whose keys are `==`
to themselves, whatever order `order` the `range` over `m` produced its keys in
(each key once), collecting `FromMap m` returns the values looked up along
`order`: a sequence of length `len(m)` that is a permutation of the values of
`m`, the value of every key appearing exactly once. -/
theorem FromMap_collect_reflexive [BEq K] [Inhabited V] (m : GoMap K V) (order : List K)
    (horder : order.Perm m.keys) (hrefl : ∀ k ∈ m.keys, (k == k) = true) :
    ∃ vals, (∀ fuel, m.len < fuel → (FromMap m order).Collect fuel =
        some (vals, Iterator.mk mapIterable (mapIterator.mk order m order.length))) ∧
      vals.length = m.len ∧
      vals.Perm m.values ∧
      vals = order.map m.index ∧
      (∀ p ∈ m.entries, m.index p.1 = p.2) := by
  have hlen : order.length = m.len := by
    rw [horder.length_eq]; simp [GoMap.keys, GoMap.len]
  refine ⟨order.map m.index, fun fuel hf => ?_, by simpa using hlen, ?_, rfl,
    fun p hp => m.index_of_mem p hp (hrefl p.1 (List.mem_map_of_mem Prod.fst hp))⟩
  · exact Collect_eq_some_iff.2 ⟨FromMap_Remaining m order, by simpa [hlen] using hf⟩
  · rw [← m.keys_map_index hrefl]
    exact horder.map _

/-- The map a→1, b→2, c→3 with its keys ranged over as c, a, b collects to a
permutation of 1, 2, 3. -/
theorem FromMap_collect_reflexive_abc :
    ∃ vals,
      (∀ fuel, (GoMap.mk [('a', 1), ('b', 2), ('c', 3)] (by decide) : GoMap Char Nat).len < fuel →
        (FromMap (GoMap.mk [('a', 1), ('b', 2), ('c', 3)] (by decide) : GoMap Char Nat)
          ['c', 'a', 'b']).Collect fuel =
        some (vals, Iterator.mk mapIterable (mapIterator.mk ['c', 'a', 'b']
          (GoMap.mk [('a', 1), ('b', 2), ('c', 3)] (by decide)) 3))) ∧
      vals.length = 3 ∧ vals.Perm [1, 2, 3] :=
  have h := FromMap_collect_reflexive
    (GoMap.mk [('a', 1), ('b', 2), ('c', 3)] (by decide) : GoMap Char Nat)
    ['c', 'a', 'b'] (by decide) (by decide)
  ⟨h.choose, h.choose_spec.1, h.choose_spec.2.1, h.choose_spec.2.2.1⟩

theorem after_succ_last (it : Iterable σ T) :
    ∀ (k : Nat) (s : σ), it.after (k + 1) s = (it.Next (it.after k s)).2 := by
  intro k
  induction k with
  | zero => intro s; rfl
  | succ k ih =>
    intro s
    rw [Iterable.after, ih (it.Next s).2]
    rfl

theorem after_of_fixed (it : Iterable σ T) (s : σ) (h : (it.Next s).2 = s) :
    ∀ k, it.after k s = s := by
  intro k
  induction k with
  | zero => rfl
  | succ k ih => rw [Iterable.after, h, ih]

/-! ## Draining -/

theorem Next_none_of_StaysExhausted {iter : Iterator σ T}
    (hp : iter.iterable.StaysExhausted) (h : iter.Next.1 = none) :
    iter.Next.2.Next.1 = none := by
  simp only [Iterator.Next] at h ⊢
  exact hp _ h

theorem Yields_iterable (ys : List T) :
    ∀ {iter mid : Iterator σ T}, iter.Yields ys mid → mid.iterable = iter.iterable := by
  induction ys with
  | nil =>
    intro iter mid h
    simp only [Iterator.Yields] at h
    rw [h]
  | cons y ys ih =>
    intro iter mid h
    obtain ⟨t, ht, hy⟩ := h
    rw [ih hy]
    have := congrArg (fun r => r.2.iterable) ht
    simpa [Iterator.Next] using this.symm

theorem Remaining_Next_none {iter e : Iterator σ T} {xs : List T}
    (hp : iter.iterable.StaysExhausted) (hr : iter.Remaining xs e) : e.Next.1 = none := by
  obtain ⟨mid, hy, hm⟩ := hr
  have hit := Yields_iterable xs hy
  have h1 : mid.Next.1 = none := by rw [hm]
  have := Next_none_of_StaysExhausted (hit ▸ hp) h1
  rwa [hm] at this

theorem sliceIterable_StaysExhausted : (sliceIterable : Iterable (sliceIterator T) T).StaysExhausted := by
  intro s h
  have hge : s.idx ≥ s.data.length := by
    by_contra hlt
    simp [sliceIterable, sliceIterator.Next, hlt] at h
  simp [sliceIterable, sliceIterator.Next, hge]

/-! ## Claims -/

/-- C1: when collecting a source returns `xs`, `Map` over the same source with
`fn` returns (with the same fuel) an iterator whose collection is `fn` applied
to every element of `xs` in pull order; the result has the length of `xs`. -/
theorem Map_collect (iterator : Iterator σ T) (fn : T → U) (fuel : Nat) (xs : List T)
    (e : Iterator σ T) (h : iterator.Collect fuel = some (xs, e)) :
    ∃ mapped e', Map iterator fn fuel = some (mapped, e) ∧
      mapped.Collect fuel = some (xs.map fn, e') ∧
      (xs.map fn).length = xs.length := by
  obtain ⟨hr, hl⟩ := Collect_eq_some_iff.1 h
  refine ⟨FromSlice (xs.map fn), _, ?_, FromSlice_Collect (xs.map fn) fuel (by simpa using hl),
    by simp⟩
  simp [Map, Map_loop_of_Remaining fn [] fuel hr hl]

theorem Map_collect_witness :
    (FromSlice [1, 2, 3]).Collect 4
        = some ([1, 2, 3], Iterator.mk sliceIterable (sliceIterator.mk [1, 2, 3] 3)) ∧
    ∃ mapped e', Map (FromSlice [1, 2, 3]) (fun n : Nat => 2 * n) 4
        = some (mapped, Iterator.mk sliceIterable (sliceIterator.mk [1, 2, 3] 3)) ∧
      mapped.Collect 4 = some ([1, 2, 3].map (fun n : Nat => 2 * n), e') ∧
      ([1, 2, 3].map (fun n : Nat => 2 * n)).length = [1, 2, 3].length :=
  ⟨rfl, Map_collect (FromSlice [1, 2, 3]) (fun n : Nat => 2 * n) 4 [1, 2, 3]
    (Iterator.mk sliceIterable (sliceIterator.mk [1, 2, 3] 3)) rfl⟩

/-- C2: when collecting a source returns `xs`, `Filter` over the same source
with predicate `fn` returns an iterator whose collection is exactly the elements
of `xs` on which `fn` is true, in their original order: a subsequence of `xs`,
of length at most that of `xs`. -/
theorem Filter_collect (iter : Iterator σ T) (fn : T → Bool) (fuel : Nat) (xs : List T)
    (e : Iterator σ T) (h : iter.Collect fuel = some (xs, e)) :
    ∃ filtered e', iter.Filter fn fuel = some (filtered, e) ∧
      filtered.Collect fuel = some (xs.filter fn, e') ∧
      (∀ x, x ∈ xs.filter fn ↔ x ∈ xs ∧ fn x = true) ∧
      (xs.filter fn).Sublist xs ∧
      (xs.filter fn).length ≤ xs.length := by
  obtain ⟨hr, hl⟩ := Collect_eq_some_iff.1 h
  have hlen : (xs.filter fn).length ≤ xs.length := List.length_filter_le _ _
  refine ⟨FromSlice (xs.filter fn), _, ?_,
    FromSlice_Collect (xs.filter fn) fuel (by omega), ?_, List.filter_sublist _, hlen⟩
  · simp [Iterator.Filter, Filter_loop_of_Remaining fn [] fuel hr hl]
  · intro x
    simp [List.mem_filter]

theorem Filter_collect_witness :
    (FromSlice [1, 2, 3, 4]).Collect 5
        = some ([1, 2, 3, 4], Iterator.mk sliceIterable (sliceIterator.mk [1, 2, 3, 4] 4)) ∧
    ∃ filtered e', (FromSlice [1, 2, 3, 4]).Filter (fun i : Nat => i % 2 == 0) 5
        = some (filtered, Iterator.mk sliceIterable (sliceIterator.mk [1, 2, 3, 4] 4)) ∧
      filtered.Collect 5 = some ([1, 2, 3, 4].filter (fun i : Nat => i % 2 == 0), e') ∧
      (∀ x, x ∈ [1, 2, 3, 4].filter (fun i : Nat => i % 2 == 0) ↔
        x ∈ [1, 2, 3, 4] ∧ (fun i : Nat => i % 2 == 0) x = true) ∧
      ([1, 2, 3, 4].filter (fun i : Nat => i % 2 == 0)).Sublist [1, 2, 3, 4] ∧
      ([1, 2, 3, 4].filter (fun i : Nat => i % 2 == 0)).length ≤ [1, 2, 3, 4].length :=
  ⟨rfl, Filter_collect (FromSlice [1, 2, 3, 4]) (fun i : Nat => i % 2 == 0) 5 [1, 2, 3, 4]
    (Iterator.mk sliceIterable (sliceIterator.mk [1, 2, 3, 4] 4)) rfl⟩

/-- C3: when collecting a source returns `xs`, `Partition` over the same source
with predicate `fn` returns two iterators; the first collects to the elements of
`xs` satisfying `fn`, the second to those not satisfying it, both in original
order.  Every element of `xs` is in exactly one of the two, and their
concatenation, in either order, is a permutation of `xs`. -/
theorem Partition_collect (iter : Iterator σ T) (fn : T → Bool) (fuel : Nat) (xs : List T)
    (e : Iterator σ T) (h : iter.Collect fuel = some (xs, e)) :
    ∃ a b ea eb, iter.Partition fn fuel = some ((a, b), e) ∧
      a.Collect fuel = some (xs.filter fn, ea) ∧
      b.Collect fuel = some (xs.filter (fun x => !fn x), eb) ∧
      (∀ x ∈ xs, (x ∈ xs.filter fn ∧ x ∉ xs.filter (fun x => !fn x)) ∨
        (x ∉ xs.filter fn ∧ x ∈ xs.filter (fun x => !fn x))) ∧
      (xs.filter fn ++ xs.filter (fun x => !fn x)).Perm xs ∧
      (xs.filter (fun x => !fn x) ++ xs.filter fn).Perm xs := by
  obtain ⟨hr, hl⟩ := Collect_eq_some_iff.1 h
  have hla : (xs.filter fn).length ≤ xs.length := List.length_filter_le _ _
  have hlb : (xs.filter (fun x => !fn x)).length ≤ xs.length := List.length_filter_le _ _
  have hperm : (xs.filter fn ++ xs.filter (fun x => !fn x)).Perm xs :=
    List.filter_append_perm fn xs
  refine ⟨FromSlice (xs.filter fn), FromSlice (xs.filter (fun x => !fn x)), _, _, ?_,
    FromSlice_Collect _ fuel (by omega), FromSlice_Collect _ fuel (by omega), ?_, hperm,
    List.perm_append_comm.trans hperm⟩
  · simp [Iterator.Partition, Partition_loop_of_Remaining fn [] [] fuel hr hl]
  · intro x hx
    cases hfx : fn x <;> simp [List.mem_filter, hx, hfx]

theorem Partition_collect_witness :
    (FromSlice [1, 2, 3, 4]).Collect 5
        = some ([1, 2, 3, 4], Iterator.mk sliceIterable (sliceIterator.mk [1, 2, 3, 4] 4)) ∧
    ∃ a b ea eb, (FromSlice [1, 2, 3, 4]).Partition (fun i : Nat => i % 2 == 0) 5
        = some ((a, b), Iterator.mk sliceIterable (sliceIterator.mk [1, 2, 3, 4] 4)) ∧
      a.Collect 5 = some ([1, 2, 3, 4].filter (fun i : Nat => i % 2 == 0), ea) ∧
      b.Collect 5 = some ([1, 2, 3, 4].filter (fun x => !(fun i : Nat => i % 2 == 0) x), eb) ∧
      (∀ x ∈ [1, 2, 3, 4],
        (x ∈ [1, 2, 3, 4].filter (fun i : Nat => i % 2 == 0) ∧
          x ∉ [1, 2, 3, 4].filter (fun x => !(fun i : Nat => i % 2 == 0) x)) ∨
        (x ∉ [1, 2, 3, 4].filter (fun i : Nat => i % 2 == 0) ∧
          x ∈ [1, 2, 3, 4].filter (fun x => !(fun i : Nat => i % 2 == 0) x))) ∧
      ([1, 2, 3, 4].filter (fun i : Nat => i % 2 == 0) ++
        [1, 2, 3, 4].filter (fun x => !(fun i : Nat => i % 2 == 0) x)).Perm [1, 2, 3, 4] ∧
      ([1, 2, 3, 4].filter (fun x => !(fun i : Nat => i % 2 == 0) x) ++
        [1, 2, 3, 4].filter (fun i : Nat => i % 2 == 0)).Perm [1, 2, 3, 4] :=
  ⟨rfl, Partition_collect (FromSlice [1, 2, 3, 4]) (fun i : Nat => i % 2 == 0) 5 [1, 2, 3, 4]
    (Iterator.mk sliceIterable (sliceIterator.mk [1, 2, 3, 4] 4)) rfl⟩

/-- C4: for two sources over distinct objects, collecting to `xs` and to `ys`,
`Chain` returns an iterator whose collection is `xs` followed by `ys`, of length
the sum of the two lengths; both operands end up drained. -/
theorem Chain_collect (iter : Iterator σ T) (iter2 : Iterator σ₂ T) (fuel₁ fuel₂ : Nat)
    (xs ys : List T) (e₁ : Iterator σ T) (e₂ : Iterator σ₂ T)
    (h₁ : iter.Collect fuel₁ = some (xs, e₁)) (h₂ : iter2.Collect fuel₂ = some (ys, e₂)) :
    ∃ chained e', iter.Chain iter2 (max fuel₁ fuel₂) = some (chained, e₁, e₂) ∧
      chained.Collect (fuel₁ + fuel₂) = some (xs ++ ys, e') ∧
      (xs ++ ys).length = xs.length + ys.length := by
  have hl₁ := (Collect_eq_some_iff.1 h₁).2
  have hl₂ := (Collect_eq_some_iff.1 h₂).2
  refine ⟨FromSlice (xs ++ ys), _, ?_,
    FromSlice_Collect (xs ++ ys) _ (by simp only [List.length_append]; omega), by simp⟩
  simp [Iterator.Chain, Collect_mono h₁ (Nat.le_max_left fuel₁ fuel₂),
    Collect_mono h₂ (Nat.le_max_right fuel₁ fuel₂)]

theorem Chain_collect_witness :
    ((FromSlice [1, 2]).Collect 3
        = some ([1, 2], Iterator.mk sliceIterable (sliceIterator.mk [1, 2] 2)) ∧
      (FromSlice [3, 4]).Collect 3
        = some ([3, 4], Iterator.mk sliceIterable (sliceIterator.mk [3, 4] 2))) ∧
    ∃ chained e', (FromSlice [1, 2]).Chain (FromSlice [3, 4]) (max 3 3)
        = some (chained, Iterator.mk sliceIterable (sliceIterator.mk [1, 2] 2),
            Iterator.mk sliceIterable (sliceIterator.mk [3, 4] 2)) ∧
      chained.Collect (3 + 3) = some ([1, 2] ++ [3, 4], e') ∧
      ([1, 2] ++ [3, 4]).length = [1, 2].length + [3, 4].length :=
  ⟨⟨rfl, rfl⟩, Chain_collect (FromSlice [1, 2]) (FromSlice [3, 4]) 3 3 [1, 2] [3, 4]
    (Iterator.mk sliceIterable (sliceIterator.mk [1, 2] 2))
    (Iterator.mk sliceIterable (sliceIterator.mk [3, 4] 2)) rfl rfl⟩

/-- C5: when collecting a source returns `xs`, `Reverse` over the same source
returns an iterator whose collection is the reversal of `xs`, of the same
length; reversing that iterator once more gives an iterator whose collection is
`xs` again. -/
theorem Reverse_collect (iter : Iterator σ T) (fuel : Nat) (xs : List T)
    (e : Iterator σ T) (h : iter.Collect fuel = some (xs, e)) :
    ∃ reversed e₁, iter.Reverse fuel = some (reversed, e) ∧
      reversed.Collect fuel = some (xs.reverse, e₁) ∧
      xs.reverse.length = xs.length ∧
      ∃ twice e₂ e₃, reversed.Reverse fuel = some (twice, e₂) ∧
        twice.Collect fuel = some (xs, e₃) := by
  have hl := (Collect_eq_some_iff.1 h).2
  have hrev : (FromSlice xs.reverse).Collect fuel = some (xs.reverse, _) :=
    FromSlice_Collect xs.reverse fuel (by simpa using hl)
  refine ⟨FromSlice xs.reverse, _, ?_, hrev, by simp, FromSlice xs,
    Iterator.mk sliceIterable (sliceIterator.mk xs.reverse xs.reverse.length), _, ?_,
    FromSlice_Collect xs fuel hl⟩
  · simp [Iterator.Reverse, h, Reverse_loop_eq_reverse]
  · simp only [Iterator.Reverse, hrev, Reverse_loop_eq_reverse, List.reverse_reverse]

theorem Reverse_collect_witness :
    (FromSlice [1, 2, 3, 4]).Collect 5
        = some ([1, 2, 3, 4], Iterator.mk sliceIterable (sliceIterator.mk [1, 2, 3, 4] 4)) ∧
    ∃ reversed e₁, (FromSlice [1, 2, 3, 4]).Reverse 5
        = some (reversed, Iterator.mk sliceIterable (sliceIterator.mk [1, 2, 3, 4] 4)) ∧
      reversed.Collect 5 = some ([1, 2, 3, 4].reverse, e₁) ∧
      [1, 2, 3, 4].reverse.length = [1, 2, 3, 4].length ∧
      ∃ twice e₂ e₃, reversed.Reverse 5 = some (twice, e₂) ∧
        twice.Collect 5 = some ([1, 2, 3, 4], e₃) :=
  ⟨rfl, Reverse_collect (FromSlice [1, 2, 3, 4]) 5 [1, 2, 3, 4]
    (Iterator.mk sliceIterable (sliceIterator.mk [1, 2, 3, 4] 4)) rfl⟩

/-- C6: when collecting a source returns `xs` and `0 ≤ n`, the iterator built
by `Take n` on the same source collects to the prefix of `xs` made of its first
`min n (length xs)` elements, so its length is `min n (length xs)`. -/
theorem Take_collect (iter : Iterator σ T) (n : Int) (fuel : Nat) (xs : List T)
    (e : Iterator σ T) (h : iter.Collect fuel = some (xs, e)) (hn : 0 ≤ n) :
    ∃ e₁, (iter.Take n).1.Collect fuel = some (xs.take (min n.toNat xs.length), e₁) ∧
      ((xs.take (min n.toNat xs.length)).length : Int) = min n (xs.length : Int) := by
  obtain ⟨hr, hl⟩ := Collect_eq_some_iff.1 h
  have h1 := (Take_of_Remaining n hr).1
  have ht : xs.take (min n.toNat xs.length) = xs.take n.toNat := by
    rcases Nat.le_total n.toNat xs.length with hle | hle
    · rw [Nat.min_eq_left hle]
    · rw [Nat.min_eq_right hle, List.take_of_length_le hle, List.take_of_length_le (Nat.le_refl _)]
  rw [h1, ht]
  refine ⟨_, FromSlice_Collect _ fuel (by rw [List.length_take]; omega), ?_⟩
  rw [List.length_take]
  omega

theorem Take_collect_witness :
    ((FromSlice [1, 2, 3, 4]).Collect 5
        = some ([1, 2, 3, 4], Iterator.mk sliceIterable (sliceIterator.mk [1, 2, 3, 4] 4)) ∧
      (0 : Int) ≤ 2) ∧
    ∃ e₁, ((FromSlice [1, 2, 3, 4]).Take 2).1.Collect 5
        = some ([1, 2, 3, 4].take (min (2 : Int).toNat [1, 2, 3, 4].length), e₁) ∧
      ((([1, 2, 3, 4] : List Nat).take (min (2 : Int).toNat [1, 2, 3, 4].length)).length : Int)
        = min 2 (([1, 2, 3, 4] : List Nat).length : Int) :=
  ⟨⟨rfl, by decide⟩, Take_collect (FromSlice [1, 2, 3, 4]) 2 5 [1, 2, 3, 4]
    (Iterator.mk sliceIterable (sliceIterator.mk [1, 2, 3, 4] 4)) rfl (by decide)⟩

/-- C7: on every source, finite or not, and for `0 ≤ n`, `Take n` returns.  The
elements it returns are the ones the source yields first, and either there are
exactly `n` of them and the receiver is left right after the `n`-th, or there
are fewer and the pull after them was answered `nil`.  Hence when the source
yields `ys` (`n` elements) and then `zs` (`m` elements), `Take n` returns `ys`
and a following `Take m` on the same wrapper returns `zs`.  On 1,2,3,4 the calls
`Take(2)`, `Take(1)`, `Take(2)` return [1,2], [3], [4]. -/
theorem Take_pulls (iter : Iterator σ T) (n : Int) (hn : 0 ≤ n) :
    (∃ ys mid, iter.Yields ys mid ∧ (iter.Take n).1 = FromSlice ys ∧
      (((ys.length : Int) = n ∧ (iter.Take n).2 = mid) ∨
        ((ys.length : Int) < n ∧ mid.Next = (none, (iter.Take n).2)))) ∧
    (∀ (m : Int) (ys zs : List T) (mid last : Iterator σ T),
      iter.Yields ys mid → (ys.length : Int) = n →
      mid.Yields zs last → (zs.length : Int) = m →
      iter.Take n = (FromSlice ys, mid) ∧ (iter.Take n).2.Take m = (FromSlice zs, last)) ∧
    ((FromSlice [1, 2, 3, 4]).Take 2).1 = FromSlice [1, 2] ∧
    (((FromSlice [1, 2, 3, 4]).Take 2).2.Take 1).1 = FromSlice [3] ∧
    ((((FromSlice [1, 2, 3, 4]).Take 2).2.Take 1).2.Take 2).1 = FromSlice [4] := by
  refine ⟨?_, ?_, ?_⟩
  · obtain ⟨ys, mid, hy, h1, h2⟩ := Take_loop_any n n.toNat iter 0 [] (by simp)
    refine ⟨ys, mid, hy, by simp [Iterator.Take, h1], ?_⟩
    rcases h2 with ⟨h2, h3⟩ | ⟨h2, h3⟩
    · exact Or.inl ⟨by omega, h3⟩
    · exact Or.inr ⟨by omega, h3⟩
  · intro m ys zs mid last hy hys hz hzs
    have k1 : iter.Take n = (FromSlice ys, mid) := by
      have := Take_loop_of_Yields n ys 0 [] hy (by omega)
      simp [Iterator.Take, this]
    have k2 : mid.Take m = (FromSlice zs, last) := by
      have := Take_loop_of_Yields m zs 0 [] hz (by omega)
      simp [Iterator.Take, this]
    exact ⟨k1, by rw [k1]; exact k2⟩
  · have e1 : (FromSlice [1, 2, 3, 4]).Take 2 =
        (FromSlice [1, 2], Iterator.mk sliceIterable (sliceIterator.mk [1, 2, 3, 4] 2)) :=
      sliceIterator_Take [1, 2, 3, 4] 0 2 (by decide)
    have e2 : (Iterator.mk sliceIterable (sliceIterator.mk [1, 2, 3, 4] 2)).Take 1 =
        (FromSlice [3], Iterator.mk sliceIterable (sliceIterator.mk [1, 2, 3, 4] 3)) :=
      sliceIterator_Take [1, 2, 3, 4] 2 1 (by decide)
    have e3 : (Iterator.mk sliceIterable (sliceIterator.mk [1, 2, 3, 4] 3)).Take 2 =
        (FromSlice [4], Iterator.mk sliceIterable (sliceIterator.mk [1, 2, 3, 4] 4)) :=
      sliceIterator_Take [1, 2, 3, 4] 3 2 (by decide)
    rw [e1, e2, e3]
    exact ⟨rfl, rfl, rfl⟩

theorem Take_pulls_witness :
    (0 : Int) ≤ 2 ∧
    (∃ ys mid, (FromSlice [1, 2, 3, 4]).Yields ys mid ∧
      ((FromSlice [1, 2, 3, 4]).Take 2).1 = FromSlice ys ∧
      (((ys.length : Int) = 2 ∧ ((FromSlice [1, 2, 3, 4]).Take 2).2 = mid) ∨
        ((ys.length : Int) < 2 ∧ mid.Next = (none, ((FromSlice [1, 2, 3, 4]).Take 2).2)))) ∧
    ((FromSlice [1, 2, 3, 4]).Take 2
        = (FromSlice [1, 2], Iterator.mk sliceIterable (sliceIterator.mk [1, 2, 3, 4] 2)) ∧
      ((FromSlice [1, 2, 3, 4]).Take 2).2.Take 1
        = (FromSlice [3], Iterator.mk sliceIterable (sliceIterator.mk [1, 2, 3, 4] 3))) :=
  ⟨by decide, (Take_pulls (FromSlice [1, 2, 3, 4]) 2 (by decide)).1,
    (Take_pulls (FromSlice [1, 2, 3, 4]) 2 (by decide)).2.1 1 [1, 2] [3]
      (Iterator.mk sliceIterable (sliceIterator.mk [1, 2, 3, 4] 2))
      (Iterator.mk sliceIterable (sliceIterator.mk [1, 2, 3, 4] 3))
      ⟨_, rfl, _, rfl, rfl⟩ rfl ⟨_, rfl, rfl⟩ rfl⟩

/-- C8: when collecting a source returns `xs` (a Go slice, so of length below
`2^63`), `Count` from the same starting state returns the length of `xs`, a
non-negative integer. -/
theorem Count_collect (iter : Iterator σ T) (fuel : Nat) (xs : List T) (e : Iterator σ T)
    (h : iter.Collect fuel = some (xs, e)) (hlen : (xs.length : Int) < 2 ^ 63) :
    ∃ count, iter.Count fuel = some (count, e) ∧ 0 ≤ count ∧ count = (xs.length : Int) := by
  obtain ⟨hr, hl⟩ := Collect_eq_some_iff.1 h
  refine ⟨(xs.length : Int), ?_, by omega, rfl⟩
  have := Count_loop_of_Remaining 0 fuel hr hl (Int.le_refl 0) (by omega)
  simpa [Iterator.Count] using this

theorem Count_collect_witness :
    ((FromSlice [1, 2, 3]).Collect 4
        = some ([1, 2, 3], Iterator.mk sliceIterable (sliceIterator.mk [1, 2, 3] 3)) ∧
      (([1, 2, 3] : List Nat).length : Int) < 2 ^ 63) ∧
    ∃ count, (FromSlice [1, 2, 3]).Count 4
        = some (count, Iterator.mk sliceIterable (sliceIterator.mk [1, 2, 3] 3)) ∧
      0 ≤ count ∧ count = (([1, 2, 3] : List Nat).length : Int) :=
  ⟨⟨rfl, by decide⟩, Count_collect (FromSlice [1, 2, 3]) 4 [1, 2, 3]
    (Iterator.mk sliceIterable (sliceIterator.mk [1, 2, 3] 3)) rfl (by decide)⟩

/-- C9: on a finite source with remaining elements `xs` and for `0 ≤ n` (a Go
`int`), `Nth n` returns `xs[n]` when `n < length xs` and `nil` otherwise.  It
consumes the first `min (n+1) (length xs)` elements: when `n < length xs` the
receiver is left right after `xs[n]`, so the rest of the source is `xs` without
its first `n+1` elements and a following `Nth 0` returns the element after the
previous result; otherwise the source is left exhausted. -/
theorem Nth_spec (iter : Iterator σ T) (n : Int) (fuel₀ fuel : Nat) (xs : List T)
    (e : Iterator σ T) (h : iter.Collect fuel₀ = some (xs, e))
    (hn : 0 ≤ n) (hn' : n < 2 ^ 63) (hf : n.toNat < fuel) :
    ∃ iter' mid, iter.Nth n fuel = some (xs[n.toNat]?, iter') ∧
      iter.Yields (xs.take (n.toNat + 1)) mid ∧
      (xs.take (n.toNat + 1)).length = min (n.toNat + 1) xs.length ∧
      (n.toNat < xs.length →
        iter' = mid ∧ iter'.Collect fuel₀ = some (xs.drop (n.toNat + 1), e) ∧
        ∃ iter₂, iter'.Nth 0 fuel = some (xs[n.toNat + 1]?, iter₂)) ∧
      (xs.length ≤ n.toNat → mid.Next = (none, iter') ∧ iter' = e) := by
  obtain ⟨hr, hl⟩ := Collect_eq_some_iff.1 h
  obtain ⟨iter', mid, h1, h2, h3, h4⟩ :=
    Nth_loop_of_Remaining n hn' 0 n.toNat fuel hr (Int.le_refl 0) (by omega) hf
  obtain ⟨zs, hzs, hz⟩ := Yields_Remaining _ h2 hr
  refine ⟨iter', mid, h1, h2, List.length_take _ _, ?_, ?_⟩
  · intro hlt
    have hzs' : zs = xs.drop (n.toNat + 1) :=
      List.append_cancel_left (hzs.symm.trans (List.take_append_drop (n.toNat + 1) xs).symm)
    subst hzs'
    have hm := h3 hlt
    subst hm
    refine ⟨rfl, Collect_eq_some_iff.2 ⟨hz, by rw [List.length_drop]; omega⟩, ?_⟩
    obtain ⟨it2, _, k1, _⟩ :=
      Nth_loop_of_Remaining (0 : Int) (by decide) 0 0 fuel hz (Int.le_refl 0) (by simp)
        (by omega)
    refine ⟨it2, ?_⟩
    rw [Iterator.Nth, k1]
    simp [List.getElem?_drop]
  · intro hle
    have hm := h4 hle
    rw [List.take_of_length_le (by omega)] at hzs
    have hnil : zs = [] := by
      have := congrArg List.length hzs
      simp only [List.length_append] at this
      exact List.eq_nil_of_length_eq_zero (by omega)
    subst hnil
    have := Remaining_nil_iff.1 hz
    rw [this] at hm
    simp only [Prod.mk.injEq, true_and] at hm
    exact ⟨by rw [this, hm], hm.symm⟩

theorem Nth_spec_witness :
    ((FromSlice [1, 2, 3, 4]).Collect 5
        = some ([1, 2, 3, 4], Iterator.mk sliceIterable (sliceIterator.mk [1, 2, 3, 4] 4)) ∧
      (0 : Int) ≤ 1 ∧ (1 : Int) < 2 ^ 63 ∧ (1 : Int).toNat < 3) ∧
    ∃ iter' mid, (FromSlice [1, 2, 3, 4]).Nth 1 3 = some ([1, 2, 3, 4][(1 : Int).toNat]?, iter') ∧
      (FromSlice [1, 2, 3, 4]).Yields ([1, 2, 3, 4].take ((1 : Int).toNat + 1)) mid ∧
      (([1, 2, 3, 4] : List Nat).take ((1 : Int).toNat + 1)).length
        = min ((1 : Int).toNat + 1) ([1, 2, 3, 4] : List Nat).length ∧
      ((1 : Int).toNat < ([1, 2, 3, 4] : List Nat).length →
        iter' = mid ∧
        iter'.Collect 5 = some ([1, 2, 3, 4].drop ((1 : Int).toNat + 1),
          Iterator.mk sliceIterable (sliceIterator.mk [1, 2, 3, 4] 4)) ∧
        ∃ iter₂, iter'.Nth 0 3 = some ([1, 2, 3, 4][(1 : Int).toNat + 1]?, iter₂)) ∧
      (([1, 2, 3, 4] : List Nat).length ≤ (1 : Int).toNat →
        mid.Next = (none, iter') ∧
        iter' = Iterator.mk sliceIterable (sliceIterator.mk [1, 2, 3, 4] 4)) :=
  ⟨⟨rfl, by decide, by decide, by decide⟩,
    Nth_spec (FromSlice [1, 2, 3, 4]) 1 5 3 [1, 2, 3, 4]
      (Iterator.mk sliceIterable (sliceIterator.mk [1, 2, 3, 4] 4)) rfl (by decide) (by decide)
      (by decide)⟩

/-- C10: on a finite source with remaining elements `xs` (one that, once
exhausted, answers the next pull with `nil` again) and for `0 ≤ n`, `Skip n`
consumes the first `min n (length xs)` elements of the source, and when
`length xs < n` the pull after them, answered `nil`.  The wrapper it returns is
the receiver, over the same source, and collecting it afterwards yields `xs`
without its first `n` elements, empty when `n ≥ length xs`. -/
theorem Skip_collect (iter : Iterator σ T) (n : Int) (fuel : Nat) (xs : List T)
    (e : Iterator σ T) (h : iter.Collect fuel = some (xs, e)) (hn : 0 ≤ n)
    (hperm : xs.length < n.toNat → e.Next.1 = none) :
    (iter.Skip n).1 = (iter.Skip n).2 ∧
    (∃ mid, iter.Yields (xs.take n.toNat) mid ∧
      ((xs.take n.toNat).length : Int) = min n (xs.length : Int) ∧
      (n.toNat ≤ xs.length → (iter.Skip n).2 = mid) ∧
      (xs.length < n.toNat → mid.Next = (none, (iter.Skip n).2))) ∧
    (∃ e₁, (iter.Skip n).1.Collect fuel = some (xs.drop n.toNat, e₁) ∧
      (iter.Skip n).2.Collect fuel = some (xs.drop n.toNat, e₁)) ∧
    (xs.length ≤ n.toNat → xs.drop n.toNat = []) := by
  obtain ⟨hr, hl⟩ := Collect_eq_some_iff.1 h
  obtain ⟨_, h2, h3⟩ := Take_of_Remaining n hr
  have hlen : ((xs.take n.toNat).length : Int) = min n (xs.length : Int) := by
    rw [List.length_take]; omega
  refine ⟨rfl, ?_, ?_, fun hle => List.drop_eq_nil_of_le hle⟩
  · by_cases hle : n.toNat ≤ xs.length
    · exact ⟨(iter.Take n).2, (h2 hle).1, hlen, fun _ => rfl, fun hlt => by omega⟩
    · obtain ⟨mid, hy, hm⟩ := hr
      have hlt : xs.length < n.toNat := by omega
      refine ⟨mid, by rwa [List.take_of_length_le (by omega)], hlen, fun h => by omega,
        fun _ => ?_⟩
      simp only [Iterator.Skip, h3 hlt]
      exact hm
  · simp only [Iterator.Skip]
    by_cases hle : n.toNat ≤ xs.length
    · have hd : (xs.drop n.toNat).length < fuel := by rw [List.length_drop]; omega
      have := Collect_eq_some_iff.2 ⟨(h2 hle).2, hd⟩
      exact ⟨e, this, this⟩
    · have hlt : xs.length < n.toNat := by omega
      have hnone := hperm hlt
      have hN : e.Next = (none, e.Next.2) := Prod.ext hnone rfl
      have hd : ([] : List T).length < fuel := by simp only [List.length_nil]; omega
      have := Collect_eq_some_iff.2 ⟨Remaining_nil_iff.2 hN, hd⟩
      rw [h3 hlt, List.drop_eq_nil_of_le (by omega)]
      exact ⟨_, this, this⟩

theorem Skip_collect_witness :
    ((FromSlice [1, 2]).Collect 3
        = some ([1, 2], Iterator.mk sliceIterable (sliceIterator.mk [1, 2] 2)) ∧
      (0 : Int) ≤ 5 ∧
      (([1, 2] : List Nat).length < (5 : Int).toNat →
        (Iterator.mk sliceIterable (sliceIterator.mk [1, 2] 2)).Next.1 = none)) ∧
    ((FromSlice [1, 2]).Skip 5).1 = ((FromSlice [1, 2]).Skip 5).2 ∧
    (∃ mid, (FromSlice [1, 2]).Yields ([1, 2].take (5 : Int).toNat) mid ∧
      ((([1, 2] : List Nat).take (5 : Int).toNat).length : Int)
        = min 5 (([1, 2] : List Nat).length : Int) ∧
      ((5 : Int).toNat ≤ ([1, 2] : List Nat).length → ((FromSlice [1, 2]).Skip 5).2 = mid) ∧
      (([1, 2] : List Nat).length < (5 : Int).toNat →
        mid.Next = (none, ((FromSlice [1, 2]).Skip 5).2))) ∧
    (∃ e₁, ((FromSlice [1, 2]).Skip 5).1.Collect 3 = some ([1, 2].drop (5 : Int).toNat, e₁) ∧
      ((FromSlice [1, 2]).Skip 5).2.Collect 3 = some ([1, 2].drop (5 : Int).toNat, e₁)) ∧
    (([1, 2] : List Nat).length ≤ (5 : Int).toNat → ([1, 2] : List Nat).drop (5 : Int).toNat = []) :=
  ⟨⟨rfl, by decide, fun _ => rfl⟩,
    Skip_collect (FromSlice [1, 2]) 5 3 [1, 2]
      (Iterator.mk sliceIterable (sliceIterator.mk [1, 2] 2)) rfl (by decide) (fun _ => rfl)⟩

/-- C11: on a finite source with remaining elements `xs` (one that, once
exhausted, answers the next pull with `nil` again) and for `1 ≤ n` (a Go
`int`), the iterator built by `StepBy n` collects to `ys` with
`ys[j] = xs[j * n]` for every `j`: the elements of `xs` at indices 0, n, 2n, ...
in order, `⌈length xs / n⌉` of them.  On 1,...,6 with `n = 2` it is [1,3,5]. -/
theorem StepBy_collect (iter : Iterator σ T) (n : Int) (fuel : Nat) (xs : List T)
    (e : Iterator σ T) (h : iter.Collect fuel = some (xs, e))
    (hn : 1 ≤ n) (hn' : n < 2 ^ 63)
    (hperm : xs.length % n.toNat ≠ 0 → e.Next.1 = none) :
    (∃ stepped e₁ e₂ ys, iter.StepBy n fuel = some (stepped, e₁) ∧
      stepped.Collect fuel = some (ys, e₂) ∧
      (∀ j, ys[j]? = xs[j * n.toNat]?) ∧
      ys.length = (xs.length + n.toNat - 1) / n.toNat) ∧
    (FromSlice [1, 2, 3, 4, 5, 6]).StepBy 2 7 =
      some (FromSlice [1, 3, 5],
        Iterator.mk sliceIterable (sliceIterator.mk [1, 2, 3, 4, 5, 6] 6)) := by
  constructor
  · obtain ⟨hr, hl⟩ := Collect_eq_some_iff.1 h
    obtain ⟨k, rfl⟩ := Int.eq_ofNat_of_zero_le (show 0 ≤ n by omega)
    simp only [Int.toNat_ofNat] at hperm ⊢
    have hk : 1 ≤ k := by omega
    obtain ⟨ys, e', k1, k2, k3, _⟩ :=
      StepBy_loop_of_Remaining k hk hn' xs.length xs [] fuel (Nat.le_refl _) hr hl hperm
    have hys : ys.length < fuel := by
      have : (xs.length + k - 1) / k ≤ xs.length := by
        rcases Nat.eq_zero_or_pos xs.length with h0 | h0
        · rw [h0, Nat.zero_add]
          exact Nat.le_of_eq (Nat.div_eq_of_lt (by omega))
        · apply Nat.div_le_of_le_mul
          obtain ⟨L, hL⟩ : ∃ L, xs.length = L + 1 := ⟨xs.length - 1, by omega⟩
          have : L ≤ k * L := Nat.le_mul_of_pos_left L hk
          rw [hL, Nat.mul_succ]
          omega
      omega
    refine ⟨FromSlice ys, e', _, ys, ?_, FromSlice_Collect ys fuel hys, k2, k3⟩
    simp only [List.nil_append] at k1
    simp [Iterator.StepBy, k1]
  · have key : Iterator.StepBy.loop 2 (6 + 1)
        (Iterator.mk sliceIterable (sliceIterator.mk [1, 2, 3, 4, 5, 6] 0)) [] =
        some ([1, 3, 5], Iterator.mk sliceIterable (sliceIterator.mk [1, 2, 3, 4, 5, 6] 6)) := by
      rw [sliceIterator_StepBy_loop_lt 2 [1, 2, 3, 4, 5, 6] 0 6 [] (by decide)]
      rw [show min (0 + 1 + (wrapInt (2 - 1)).toNat) [1, 2, 3, 4, 5, 6].length = 2 by decide]
      rw [sliceIterator_StepBy_loop_lt 2 [1, 2, 3, 4, 5, 6] 2 5 _ (by decide)]
      rw [show min (2 + 1 + (wrapInt (2 - 1)).toNat) [1, 2, 3, 4, 5, 6].length = 4 by decide]
      rw [sliceIterator_StepBy_loop_lt 2 [1, 2, 3, 4, 5, 6] 4 4 _ (by decide)]
      rw [show min (4 + 1 + (wrapInt (2 - 1)).toNat) [1, 2, 3, 4, 5, 6].length = 6 by decide]
      rw [sliceIterator_StepBy_loop_ge 2 [1, 2, 3, 4, 5, 6] 6 3 _ (by decide)]
      rfl
    have key' : Iterator.StepBy.loop 2 7 (FromSlice [1, 2, 3, 4, 5, 6]) [] =
        some ([1, 3, 5], Iterator.mk sliceIterable (sliceIterator.mk [1, 2, 3, 4, 5, 6] 6)) :=
      key
    exact StepBy_of_loop key'

theorem StepBy_collect_witness :
    ((FromSlice [1, 2, 3]).Collect 4
        = some ([1, 2, 3], Iterator.mk sliceIterable (sliceIterator.mk [1, 2, 3] 3)) ∧
      (1 : Int) ≤ 2 ∧ (2 : Int) < 2 ^ 63 ∧
      (([1, 2, 3] : List Nat).length % (2 : Int).toNat ≠ 0 →
        (Iterator.mk sliceIterable (sliceIterator.mk [1, 2, 3] 3)).Next.1 = none)) ∧
    ∃ stepped e₁ e₂ ys, (FromSlice [1, 2, 3]).StepBy 2 4 = some (stepped, e₁) ∧
      stepped.Collect 4 = some (ys, e₂) ∧
      (∀ j, ys[j]? = [1, 2, 3][j * (2 : Int).toNat]?) ∧
      ys.length = (([1, 2, 3] : List Nat).length + (2 : Int).toNat - 1) / (2 : Int).toNat :=
  ⟨⟨rfl, by decide, by decide, fun _ => rfl⟩,
    (StepBy_collect (FromSlice [1, 2, 3]) 2 4 [1, 2, 3]
      (Iterator.mk sliceIterable (sliceIterator.mk [1, 2, 3] 3)) rfl (by decide) (by decide)
      (fun _ => rfl)).1⟩

/-- C12: when collecting a source returns `xs`, `Last` from the same starting
state returns the final element of `xs` when `xs` is not empty and `nil` when
the source has no element left. -/
theorem Last_collect (iter : Iterator σ T) (fuel : Nat) (xs : List T) (e : Iterator σ T)
    (h : iter.Collect fuel = some (xs, e)) :
    iter.Last fuel = some (xs.getLast?, e) ∧
    (∀ hne : xs ≠ [], iter.Last fuel = some (some (xs.getLast hne), e)) ∧
    (xs = [] → iter.Last fuel = some (none, e)) := by
  obtain ⟨hr, hl⟩ := Collect_eq_some_iff.1 h
  have key : iter.Last fuel = some (xs.getLast?, e) := by
    rw [Iterator.Last, Last_loop_of_Remaining none fuel hr hl]
    cases xs with
    | nil => simp
    | cons x xs => simp
  refine ⟨key, fun hne => ?_, fun hx => ?_⟩
  · rw [key, List.getLast?_eq_getLast _ hne]
  · rw [key, hx]; rfl

theorem Last_collect_witness :
    (FromSlice [1, 2, 3, 4]).Collect 5
        = some ([1, 2, 3, 4], Iterator.mk sliceIterable (sliceIterator.mk [1, 2, 3, 4] 4)) ∧
    (FromSlice [1, 2, 3, 4]).Last 5
        = some (some 4, Iterator.mk sliceIterable (sliceIterator.mk [1, 2, 3, 4] 4)) :=
  ⟨rfl, (Last_collect (FromSlice [1, 2, 3, 4]) 5 [1, 2, 3, 4]
    (Iterator.mk sliceIterable (sliceIterator.mk [1, 2, 3, 4] 4)) rfl).1⟩

/-- C13: when collecting a source returns `xs`, `ForEach` from the same starting
state runs the callback once per element of `xs`, in pull order, and on nothing
else: the callback's environment ends as the left fold of the callback over
`xs`; a callback that records its argument ends with exactly `xs`; summing
1,2,3,4 from 0 gives 10. -/
theorem ForEach_fold (iter : Iterator σ T) (fn : T → β → β) (env : β) (fuel : Nat)
    (xs : List T) (e : Iterator σ T) (h : iter.Collect fuel = some (xs, e)) :
    iter.ForEach fn fuel env = some (xs.foldl (fun acc x => fn x acc) env, e) ∧
    iter.ForEach (fun x (calls : List T) => calls ++ [x]) fuel [] = some (xs, e) ∧
    (FromSlice [1, 2, 3, 4]).ForEach (fun i (res : Nat) => res + i) 5 0
      = some (10, Iterator.mk sliceIterable (sliceIterator.mk [1, 2, 3, 4] 4)) := by
  obtain ⟨hr, hl⟩ := Collect_eq_some_iff.1 h
  refine ⟨ForEach_loop_of_Remaining fn env fuel hr hl, ?_, rfl⟩
  rw [Iterator.ForEach, ForEach_loop_of_Remaining _ [] fuel hr hl, foldl_record]
  simp

theorem ForEach_fold_witness :
    (FromSlice [1, 2, 3]).Collect 4
        = some ([1, 2, 3], Iterator.mk sliceIterable (sliceIterator.mk [1, 2, 3] 3)) ∧
    (FromSlice [1, 2, 3]).ForEach (fun i (out : List Nat) => out ++ [i]) 4 []
        = some ([1, 2, 3].foldl (fun acc x => (fun i (out : List Nat) => out ++ [i]) x acc) [],
            Iterator.mk sliceIterable (sliceIterator.mk [1, 2, 3] 3)) :=
  ⟨rfl, (ForEach_fold (FromSlice [1, 2, 3]) (fun i (out : List Nat) => out ++ [i]) [] 4
    [1, 2, 3] (Iterator.mk sliceIterable (sliceIterator.mk [1, 2, 3] 3)) rfl).1⟩

/-- C14: collecting a fresh `FromSlice l` returns exactly `l`, with any fuel
above the length of `l`: the array source yields the elements of `l` in index
order, each once (the pull at cursor `i` returns `l[i]` and moves the cursor to
`i + 1`), then answers `nil` at cursor `length l`; an empty slice collects to
the empty slice. -/
theorem FromSlice_roundtrip (l : List T) :
    (∀ fuel, l.length < fuel →
      (FromSlice l).Collect fuel =
        some (l, Iterator.mk sliceIterable (sliceIterator.mk l l.length))) ∧
    (FromSlice l).Yields l (Iterator.mk sliceIterable (sliceIterator.mk l l.length)) ∧
    (∀ (i : Nat) (hi : i < l.length), sliceIterator.Next (sliceIterator.mk l i) =
      (some (l.get ⟨i, hi⟩), sliceIterator.mk l (i + 1))) ∧
    (Iterator.mk sliceIterable (sliceIterator.mk l l.length)).Next =
      (none, Iterator.mk sliceIterable (sliceIterator.mk l l.length)) ∧
    (FromSlice ([] : List T)).Collect 1 =
      some ([], Iterator.mk sliceIterable (sliceIterator.mk [] 0)) := by
  refine ⟨fun fuel hf => FromSlice_Collect l fuel hf, ?_, ?_,
    sliceIterator_Next_of_ge l l.length (Nat.le_refl _), rfl⟩
  · have := sliceIterator_Yields l l.length 0 (by omega)
    simpa [FromSlice, newSliceIterator] using this
  · intro i hi
    have h' : ¬ i ≥ l.length := by omega
    simp [sliceIterator.Next, h']

theorem FromSlice_roundtrip_witness :
    ([1, 2, 3] : List Nat).length < 4 ∧
    (FromSlice [1, 2, 3]).Collect 4 =
      some ([1, 2, 3], Iterator.mk sliceIterable (sliceIterator.mk [1, 2, 3] 3)) :=
  ⟨by decide, (FromSlice_roundtrip [1, 2, 3]).1 4 (by decide)⟩

/-- C15: collecting `FromMap m` should return a permutation of the values of
`m`, the value of every key once.  The code snapshots the keys and looks each
one up again with `m[key]`; on `map[float64]int{NaN: 1}` the `range` yields the
NaN key, the lookup finds no entry, because NaN is not `==` to itself, and
`Collect` returns the zero value, [0], which is not a permutation of the values
[1]. -/
theorem FromMap_NaN_key :
    (GoMap.mk [(Float64.NaN, 1)] (by decide) : GoMap Float64 Nat).keys = [Float64.NaN] ∧
    (GoMap.mk [(Float64.NaN, 1)] (by decide) : GoMap Float64 Nat).values = [1] ∧
    (FromMap (GoMap.mk [(Float64.NaN, 1)] (by decide) : GoMap Float64 Nat)
        [Float64.NaN]).Collect 2 =
      some ([0], Iterator.mk mapIterable (mapIterator.mk [Float64.NaN]
        (GoMap.mk [(Float64.NaN, 1)] (by decide)) 1)) ∧
    ¬ ([0] : List Nat).Perm [1] := by
  refine ⟨rfl, rfl, rfl, ?_⟩
  intro h
  have := h.eq_singleton
  simp at this

/-- C16: on a finite source honouring the pull-next contract (a source that has
answered `nil` keeps answering `nil`), each of `Collect`, `Count`, `Last`,
`ForEach`, `Map`, `Filter`, `Partition`, `Reverse` and `Chain` (for both
operands) returns and leaves its receiver in the state `e` reached by the first
pull answered `nil`; `StepBy n` with `1 ≤ n` leaves it there or one pull
further.  In each case the next pull on the receiver returns `nil`.  An array
source satisfies the contract and its exhausted state has the cursor at the
length. -/
theorem drains_receiver (iter : Iterator σ T) (iter2 : Iterator σ₂ T) (fuel fuel₂ : Nat)
    (xs ys : List T) (e : Iterator σ T) (e₂ : Iterator σ₂ T)
    (h : iter.Collect fuel = some (xs, e)) (h₂ : iter2.Collect fuel₂ = some (ys, e₂))
    (hperm : iter.iterable.StaysExhausted) (hperm₂ : iter2.iterable.StaysExhausted)
    (fn : T → U) (p : T → Bool) (g : T → β → β) (env : β)
    (n : Int) (hn : 1 ≤ n) (hn' : n < 2 ^ 63) (hlen : (xs.length : Int) < 2 ^ 63) :
    (e.Next.1 = none ∧ e₂.Next.1 = none) ∧
    (iter.Collect fuel).map Prod.snd = some e ∧
    (iter.Count fuel).map Prod.snd = some e ∧
    (iter.Last fuel).map Prod.snd = some e ∧
    (iter.ForEach g fuel env).map Prod.snd = some e ∧
    (Map iter fn fuel).map Prod.snd = some e ∧
    (iter.Filter p fuel).map Prod.snd = some e ∧
    (iter.Partition p fuel).map Prod.snd = some e ∧
    (iter.Reverse fuel).map Prod.snd = some e ∧
    (iter.Chain iter2 (max fuel fuel₂)).map Prod.snd = some (e, e₂) ∧
    (∃ r, (iter.StepBy n fuel).map Prod.snd = some r ∧ r.Next.1 = none ∧
      (r = e ∨ r = e.Next.2)) ∧
    ((sliceIterable : Iterable (sliceIterator T) T).StaysExhausted ∧
      ∀ (l : List T) (i : Nat), i ≤ l.length →
        (Iterator.mk sliceIterable (sliceIterator.mk l i)).Collect (l.length + 1) =
          some (l.drop i, Iterator.mk sliceIterable (sliceIterator.mk l l.length)) ∧
        (Iterator.mk sliceIterable (sliceIterator.mk l l.length)).Next =
          (none, Iterator.mk sliceIterable (sliceIterator.mk l l.length))) := by
  obtain ⟨hr, hl⟩ := Collect_eq_some_iff.1 h
  obtain ⟨hr₂, _⟩ := Collect_eq_some_iff.1 h₂
  have he : e.Next.1 = none := Remaining_Next_none hperm hr
  have he₂ : e₂.Next.1 = none := Remaining_Next_none hperm₂ hr₂
  refine ⟨⟨he, he₂⟩, by rw [h]; rfl, ?_, ?_, ?_, ?_, ?_, ?_, ?_, ?_, ?_,
    sliceIterable_StaysExhausted, fun l i hi => ⟨?_, sliceIterator_Next_of_ge l l.length
      (Nat.le_refl _)⟩⟩
  · rw [Iterator.Count, Count_loop_of_Remaining 0 fuel hr hl (Int.le_refl 0) (by omega)]
    rfl
  · rw [Iterator.Last, Last_loop_of_Remaining none fuel hr hl]
    rfl
  · rw [Iterator.ForEach, ForEach_loop_of_Remaining g env fuel hr hl]
    rfl
  · simp [Map, Map_loop_of_Remaining fn [] fuel hr hl]
  · simp [Iterator.Filter, Filter_loop_of_Remaining p [] fuel hr hl]
  · simp [Iterator.Partition, Partition_loop_of_Remaining p [] [] fuel hr hl]
  · simp [Iterator.Reverse, h]
  · simp [Iterator.Chain, Collect_mono h (Nat.le_max_left fuel fuel₂),
      Collect_mono h₂ (Nat.le_max_right fuel fuel₂)]
  · obtain ⟨k, rfl⟩ := Int.eq_ofNat_of_zero_le (show 0 ≤ n by omega)
    obtain ⟨zs, r, k1, _, _, k4⟩ :=
      StepBy_loop_of_Remaining k (by omega) hn' xs.length xs [] fuel (Nat.le_refl _) hr hl
        (fun _ => he)
    refine ⟨r, ?_, ?_, k4⟩
    · rw [StepBy_of_loop k1]; rfl
    · rcases k4 with rfl | rfl
      · exact he
      · have hit : e.iterable = iter.iterable := by
          obtain ⟨mid, hy, hm⟩ := hr
          rw [← Yields_iterable xs hy]
          have := congrArg (fun r => r.2.iterable) hm
          simpa [Iterator.Next] using this.symm
        exact Next_none_of_StaysExhausted (hit ▸ hperm) he
  · exact Collect_eq_some_iff.2
      ⟨sliceIterator_Remaining l i hi, by rw [List.length_drop]; omega⟩

theorem drains_receiver_witness :
    ((FromSlice [1, 2, 3]).Collect 4
        = some ([1, 2, 3], Iterator.mk sliceIterable (sliceIterator.mk [1, 2, 3] 3)) ∧
      (FromSlice [4]).Collect 2
        = some ([4], Iterator.mk sliceIterable (sliceIterator.mk [4] 1)) ∧
      (sliceIterable : Iterable (sliceIterator Nat) Nat).StaysExhausted ∧
      (1 : Int) ≤ 2 ∧ (2 : Int) < 2 ^ 63 ∧ (([1, 2, 3] : List Nat).length : Int) < 2 ^ 63) ∧
    ((FromSlice [1, 2, 3]).Count 4).map Prod.snd
      = some (Iterator.mk sliceIterable (sliceIterator.mk [1, 2, 3] 3)) ∧
    ∃ r, ((FromSlice [1, 2, 3]).StepBy 2 4).map Prod.snd = some r ∧ r.Next.1 = none ∧
      (r = Iterator.mk sliceIterable (sliceIterator.mk [1, 2, 3] 3) ∨
        r = (Iterator.mk sliceIterable (sliceIterator.mk [1, 2, 3] 3)).Next.2) :=
  have hw := drains_receiver (FromSlice [1, 2, 3]) (FromSlice [4]) 4 2 [1, 2, 3] [4]
    (Iterator.mk sliceIterable (sliceIterator.mk [1, 2, 3] 3))
    (Iterator.mk sliceIterable (sliceIterator.mk [4] 1)) rfl rfl
    sliceIterable_StaysExhausted sliceIterable_StaysExhausted
    (fun x : Nat => x + 1) (fun x : Nat => x % 2 == 0) (fun (x acc : Nat) => acc + x) 0
    2 (by decide) (by decide) (by decide)
  ⟨⟨rfl, rfl, sliceIterable_StaysExhausted, by decide, by decide, by decide⟩,
    hw.2.2.1, hw.2.2.2.2.2.2.2.2.2.2.1⟩

/-- C17: for the array source and the associative-container source exhaustion
is permanent: once a pull has returned `nil`, the state is the one before that
pull, and after any number of further pulls the next pull again returns `nil`
and the state is still the same. -/
theorem exhaustion_permanent [BEq K] [Inhabited V] :
    (∀ s : sliceIterator T, (sliceIterator.Next s).1 = none →
      (sliceIterator.Next s).2 = s ∧
      ∀ k, sliceIterable.after k (sliceIterator.Next s).2 = s ∧
        sliceIterator.Next (sliceIterable.after k (sliceIterator.Next s).2) = (none, s)) ∧
    (∀ s : mapIterator K V, (mapIterator.Next s).1 = none →
      (mapIterator.Next s).2 = s ∧
      ∀ k, mapIterable.after k (mapIterator.Next s).2 = s ∧
        mapIterator.Next (mapIterable.after k (mapIterator.Next s).2) = (none, s)) := by
  constructor
  · intro s h
    have hge : s.idx ≥ s.data.length := by
      by_contra hlt
      simp [sliceIterator.Next, hlt] at h
    have hN : sliceIterator.Next s = (none, s) := by simp [sliceIterator.Next, hge]
    refine ⟨by rw [hN], fun k => ?_⟩
    have hfix := after_of_fixed sliceIterable s (by simp [sliceIterable, hN]) k
    rw [hN]
    exact ⟨hfix, by rw [hfix, hN]⟩
  · intro s h
    have hge : s.idx ≥ s.keys.length := by
      by_contra hlt
      simp [mapIterator.Next, hlt] at h
    have hN : mapIterator.Next s = (none, s) := by simp [mapIterator.Next, hge]
    refine ⟨by rw [hN], fun k => ?_⟩
    have hfix := after_of_fixed mapIterable s (by simp [mapIterable, hN]) k
    rw [hN]
    exact ⟨hfix, by rw [hfix, hN]⟩

theorem exhaustion_permanent_witness :
    (sliceIterator.Next (sliceIterator.mk [1, 2] 2)).1 = none ∧
    sliceIterable.after 3 (sliceIterator.Next (sliceIterator.mk [1, 2] 2)).2
      = sliceIterator.mk [1, 2] 2 ∧
    sliceIterator.Next (sliceIterable.after 3 (sliceIterator.Next (sliceIterator.mk [1, 2] 2)).2)
      = (none, sliceIterator.mk [1, 2] 2) :=
  ⟨rfl, ((exhaustion_permanent (K := Nat) (V := Nat)).1 (sliceIterator.mk [1, 2] 2) rfl).2 3⟩

/-- C18: in every state reached from `newSliceIterator l` by pulls the array
source still holds `l` and its cursor is between 0 and `length l`; in every
state a pull that returns an element adds exactly 1 to the cursor and a pull
that returns `nil` leaves it unchanged, so along any run of pulls the cursor
never decreases.  Likewise the associative-container source keeps its key
snapshot and a cursor at most the number of snapshotted keys. -/
theorem cursor_invariant [BEq K] [Inhabited V] (l : List T) (m : GoMap K V)
    (order : List K) :
    (∀ k, (sliceIterable.after k (newSliceIterator l)).data = l ∧
      0 ≤ (sliceIterable.after k (newSliceIterator l)).idx ∧
      (sliceIterable.after k (newSliceIterator l)).idx ≤ l.length) ∧
    (∀ s : sliceIterator T,
      ((sliceIterator.Next s).1 ≠ none → (sliceIterator.Next s).2.idx = s.idx + 1) ∧
      ((sliceIterator.Next s).1 = none → (sliceIterator.Next s).2.idx = s.idx)) ∧
    (∀ (s : sliceIterator T) (j k : Nat), j ≤ k →
      (sliceIterable.after j s).idx ≤ (sliceIterable.after k s).idx) ∧
    (∀ k, (mapIterable.after k (newMapIterator m order)).keys = order ∧
      (mapIterable.after k (newMapIterator m order)).idx ≤ order.length) ∧
    (∀ s : mapIterator K V,
      ((mapIterator.Next s).1 ≠ none → (mapIterator.Next s).2.idx = s.idx + 1) ∧
      ((mapIterator.Next s).1 = none → (mapIterator.Next s).2.idx = s.idx)) := by
  have stepS : ∀ s : sliceIterator T,
      ((sliceIterator.Next s).1 ≠ none → (sliceIterator.Next s).2.idx = s.idx + 1) ∧
      ((sliceIterator.Next s).1 = none → (sliceIterator.Next s).2.idx = s.idx) := by
    intro s
    by_cases hge : s.idx ≥ s.data.length
    · simp [sliceIterator.Next, hge]
    · simp [sliceIterator.Next, hge]
  have stepM : ∀ s : mapIterator K V,
      ((mapIterator.Next s).1 ≠ none → (mapIterator.Next s).2.idx = s.idx + 1) ∧
      ((mapIterator.Next s).1 = none → (mapIterator.Next s).2.idx = s.idx) := by
    intro s
    by_cases hge : s.idx ≥ s.keys.length
    · simp [mapIterator.Next, hge]
    · simp [mapIterator.Next, hge]
  refine ⟨fun k => ?_, stepS, ?_, fun k => ?_, stepM⟩
  · induction k with
    | zero => simp [Iterable.after, newSliceIterator]
    | succ k ih =>
      rw [after_succ_last]
      obtain ⟨h1, _, h3⟩ := ih
      generalize sliceIterable.after k (newSliceIterator l) = s at h1 h3
      by_cases hge : s.idx ≥ s.data.length
      · have hN : sliceIterator.Next s = (none, s) := by simp [sliceIterator.Next, hge]
        simp only [sliceIterable, hN]
        exact ⟨h1, Nat.zero_le _, h3⟩
      · simp only [sliceIterable, sliceIterator.Next, hge, dite_false]
        exact ⟨h1, Nat.zero_le _, by rw [← h1]; omega⟩
  · intro s j k hjk
    obtain ⟨d, rfl⟩ := Nat.exists_eq_add_of_le hjk
    induction d with
    | zero => exact Nat.le_refl _
    | succ d ih =>
      refine Nat.le_trans (ih (Nat.le_add_right _ _)) ?_
      rw [show j + (d + 1) = (j + d) + 1 by omega, after_succ_last]
      generalize sliceIterable.after (j + d) s = t
      by_cases hnone : (sliceIterator.Next t).1 = none
      · exact Nat.le_of_eq ((stepS t).2 hnone).symm
      · have := (stepS t).1 hnone
        simp only [sliceIterable]
        omega
  · induction k with
    | zero => simp [Iterable.after, newMapIterator_eq]
    | succ k ih =>
      rw [after_succ_last]
      obtain ⟨h1, h3⟩ := ih
      generalize mapIterable.after k (newMapIterator m order) = s at h1 h3
      by_cases hge : s.idx ≥ s.keys.length
      · have hN : mapIterator.Next s = (none, s) := by simp [mapIterator.Next, hge]
        simp only [mapIterable, hN]
        exact ⟨h1, h3⟩
      · simp only [mapIterable, mapIterator.Next, hge, dite_false]
        exact ⟨h1, by rw [← h1]; omega⟩

theorem cursor_invariant_witness :
    (sliceIterator.Next (sliceIterator.mk [1, 2] 0)).1 ≠ none ∧
    (sliceIterator.Next (sliceIterator.mk [1, 2] 0)).2.idx = 0 + 1 ∧
    (sliceIterable.after 5 (newSliceIterator [1, 2])).idx ≤ 2 :=
  ⟨by decide,
    ((cursor_invariant (K := Nat) (V := Nat) [1, 2] (GoMap.mk [] List.Pairwise.nil) []).2.1
      (sliceIterator.mk [1, 2] 0)).1 (by decide),
    ((cursor_invariant (K := Nat) (V := Nat) [1, 2] (GoMap.mk [] List.Pairwise.nil) []).1 5).2.2⟩

/-- C19, as stated, fails when `n` exceeds the number of remaining elements:
`Nth` pulls the exhausted source once, `Skip` followed by a pull does so twice.
On a source that counts its `nil` answers, with one element 7 left, `Nth(2)`
leaves the count at 1 and `Skip(2)` then a pull leave it at 2. -/
theorem Nth_ne_Skip_Next :
    (Iterate countingSource ([7], 0)).Collect 2 =
      some ([7], Iterate countingSource ([], 1)) ∧
    countingSource.StaysExhausted ∧
    (Iterate countingSource ([7], 0)).Nth 2 3 = some (none, Iterate countingSource ([], 1)) ∧
    ((Iterate countingSource ([7], 0)).Skip 2).1.Next =
      (none, Iterate countingSource ([], 2)) ∧
    (Iterate countingSource ([7], 0)).Nth 2 3 ≠
      some ((Iterate countingSource ([7], 0)).Skip 2).1.Next := by
  have hr : (Iterate countingSource ([7], 0)).Remaining [7]
      (Iterate countingSource ([], 1)) := ⟨_, ⟨_, rfl, rfl⟩, rfl⟩
  have hs : ((Iterate countingSource ([7], 0)).Skip 2).1 = Iterate countingSource ([], 1) := by
    have := Take_loop_of_Remaining_short 2 [7] 0 [] hr (by decide)
    simp [Iterator.Skip, Iterator.Take, this]
  have hnext : ((Iterate countingSource ([7], 0)).Skip 2).1.Next =
      (none, Iterate countingSource ([], 2)) := by
    rw [hs]; rfl
  refine ⟨rfl, ?_, rfl, hnext, ?_⟩
  · rintro ⟨l, c⟩ h
    cases l with
    | nil => rfl
    | cons x rest => simp [countingSource] at h
  · rw [hnext]
    intro h
    have h' : Iterate countingSource (([] : List Nat), 1) = Iterate countingSource ([], 2) :=
      congrArg Prod.snd (Option.some.inj h)
    have := congrArg (fun it => it.state.2) h'
    simp [Iterate] at this

/-- C19, amended: on a finite source with remaining elements `xs` and for
`0 ≤ n` (a Go `int`), `Nth n` and `Skip n` followed by one pull on the same
wrapper return the same element (or `nil`) and leave the source in the same
state whenever `n ≤ length xs`; for `n > length xs` they do so when a pull on
the exhausted source is answered `nil` and leaves it unchanged, as the array
source does. -/
theorem Nth_eq_Skip_Next (iter : Iterator σ T) (n : Int) (fuel₀ fuel : Nat) (xs : List T)
    (e : Iterator σ T) (h : iter.Collect fuel₀ = some (xs, e))
    (hn : 0 ≤ n) (hn' : n < 2 ^ 63) (hf : n.toNat < fuel)
    (hfix : xs.length < n.toNat → e.Next = (none, e)) :
    iter.Nth n fuel = some (iter.Skip n).1.Next := by
  obtain ⟨hr, _⟩ := Collect_eq_some_iff.1 h
  obtain ⟨iter', h1, h2, h3⟩ := Nth_of_Remaining n fuel hr hn hn' hf
  obtain ⟨_, t2, t3⟩ := Take_of_Remaining n hr
  rw [h1]
  simp only [Iterator.Skip]
  congr 1
  by_cases hle : n.toNat ≤ xs.length
  · obtain ⟨hy, hrem⟩ := t2 hle
    by_cases hlt : n.toNat < xs.length
    · have hy' := h2 hlt
      rw [List.take_succ, List.getElem?_eq_getElem hlt] at hy'
      have := Yields_append_inv _ hy' hy
      obtain ⟨t, ht, hti⟩ := this
      simp only [Iterator.Yields] at hti
      subst hti
      rw [ht, List.getElem?_eq_getElem hlt]
    · have heq : n.toNat = xs.length := by omega
      rw [heq, List.drop_length] at hrem
      rw [Remaining_nil_iff.1 hrem, h3 (by omega), List.getElem?_eq_none (by omega)]
  · have hlt : xs.length < n.toNat := by omega
    rw [t3 hlt, hfix hlt, h3 (by omega), List.getElem?_eq_none (by omega)]

theorem Nth_eq_Skip_Next_witness :
    ((FromSlice [1, 2]).Collect 3
        = some ([1, 2], Iterator.mk sliceIterable (sliceIterator.mk [1, 2] 2)) ∧
      (0 : Int) ≤ 5 ∧ (5 : Int) < 2 ^ 63 ∧ (5 : Int).toNat < 6 ∧
      (([1, 2] : List Nat).length < (5 : Int).toNat →
        (Iterator.mk sliceIterable (sliceIterator.mk [1, 2] 2)).Next =
          (none, Iterator.mk sliceIterable (sliceIterator.mk [1, 2] 2)))) ∧
    (FromSlice [1, 2]).Nth 5 6 = some ((FromSlice [1, 2]).Skip 5).1.Next :=
  ⟨⟨rfl, by decide, by decide, by decide, fun _ => rfl⟩,
    Nth_eq_Skip_Next (FromSlice [1, 2]) 5 3 6 [1, 2]
      (Iterator.mk sliceIterable (sliceIterator.mk [1, 2] 2)) rfl (by decide) (by decide)
      (by decide) (fun _ => rfl)⟩

/-- C20, as stated, fails at the least `int`: `n - 1` wraps to `2^63 - 1`, the
inner `Skip` drains the source, and `StepBy(-2^63)` on 1,2,3 keeps only 1. -/
theorem StepBy_minInt_drops :
    (-2 ^ 63 : Int) ≤ 1 ∧
    (FromSlice [1, 2, 3]).Collect 4 =
      some ([1, 2, 3], Iterator.mk sliceIterable (sliceIterator.mk [1, 2, 3] 3)) ∧
    (FromSlice [1, 2, 3]).StepBy (-2 ^ 63) 4 =
      some (FromSlice [1], Iterator.mk sliceIterable (sliceIterator.mk [1, 2, 3] 3)) ∧
    (FromSlice [1]).Collect 4 =
      some ([1], Iterator.mk sliceIterable (sliceIterator.mk [1] 1)) ∧
    ([1] : List Nat) ≠ [1, 2, 3] := by
  refine ⟨by decide, rfl, ?_, rfl, by decide⟩
  have key : Iterator.StepBy.loop (-2 ^ 63) (3 + 1)
      (Iterator.mk sliceIterable (sliceIterator.mk [1, 2, 3] 0)) [] =
      some ([1], Iterator.mk sliceIterable (sliceIterator.mk [1, 2, 3] 3)) := by
    rw [sliceIterator_StepBy_loop_lt (-2 ^ 63) [1, 2, 3] 0 3 [] (by decide)]
    rw [show min (0 + 1 + (wrapInt (-2 ^ 63 - 1)).toNat) [1, 2, 3].length = 3 by decide]
    rw [sliceIterator_StepBy_loop_ge (-2 ^ 63) [1, 2, 3] 3 2 _ (by decide)]
    rfl
  have key' : Iterator.StepBy.loop (-2 ^ 63) 4 (FromSlice [1, 2, 3]) [] =
      some ([1], Iterator.mk sliceIterable (sliceIterator.mk [1, 2, 3] 3)) := key
  exact StepBy_of_loop key'

/-- C20, amended: for every `n` with `-2^63 < n ≤ 1` and every finite source
collecting to `xs`, `StepBy n` returns, leaves the source drained, and the
iterator it builds collects to `xs`: the inner `Skip(n - 1)` has a non-positive
count and pulls nothing. -/
theorem StepBy_nonpos_collect (iter : Iterator σ T) (n : Int) (fuel : Nat) (xs : List T)
    (e : Iterator σ T) (h : iter.Collect fuel = some (xs, e))
    (hn : n ≤ 1) (hmin : -2 ^ 63 < n) :
    ∃ stepped e₁, iter.StepBy n fuel = some (stepped, e) ∧
      stepped.Collect fuel = some (xs, e₁) ∧
      (∀ it : Iterator σ T, (it.Skip (wrapInt (n - 1))).2 = it) := by
  obtain ⟨hr, hl⟩ := Collect_eq_some_iff.1 h
  have hw : wrapInt (n - 1) ≤ 0 := by
    rw [wrapInt_of_range _ (by omega) (by omega)]
    omega
  refine ⟨FromSlice xs, _, ?_, FromSlice_Collect xs fuel hl, fun it => Skip_of_nonpos it _ hw⟩
  simp [Iterator.StepBy, StepBy_loop_of_nonpos n hw [] fuel hr hl]

theorem StepBy_nonpos_collect_witness :
    ((FromSlice [1, 2, 3]).Collect 4
        = some ([1, 2, 3], Iterator.mk sliceIterable (sliceIterator.mk [1, 2, 3] 3)) ∧
      (-5 : Int) ≤ 1 ∧ (-2 ^ 63 : Int) < -5) ∧
    ∃ stepped e₁, (FromSlice [1, 2, 3]).StepBy (-5) 4
        = some (stepped, Iterator.mk sliceIterable (sliceIterator.mk [1, 2, 3] 3)) ∧
      stepped.Collect 4 = some ([1, 2, 3], e₁) ∧
      (∀ it : Iterator (sliceIterator Nat) Nat, (it.Skip (wrapInt (-5 - 1))).2 = it) :=
  ⟨⟨rfl, by decide, by decide⟩,
    StepBy_nonpos_collect (FromSlice [1, 2, 3]) (-5) 4 [1, 2, 3]
      (Iterator.mk sliceIterable (sliceIterator.mk [1, 2, 3] 3)) rfl (by decide) (by decide)⟩

end iterator
